import Mathlib

/-!
Verification of the scarab simulation framework core
(`scarab/framework/simulation/_event_queue.py`, `_event_router.py`,
`simulation.py`, `events.py`, `entity.py`) via a shallow embedding.

Python `int` is modelled by `Int`, `None`-able values by `Option`,
Python `dict`/`SortedDict` by association lists (insertion-ordered for
plain dicts, key-sorted for `SortedDict`), and raised exceptions by
`Except`.
-/

namespace Scarab

/-- Values stored in entity properties and event payloads.  A small
universe with decidable equality standing in for arbitrary Python
values compared with `==` / `!=`. -/
inductive PropValue where
  | str (s : String)
  | int (n : Int)
  | bool (b : Bool)
  | pyNone
deriving DecidableEq, Repr

/-- A property dictionary: a Python `dict` of public attributes, kept in
insertion order.  Keys are unique in any dict produced by Python. -/
abbrev Props := List (String × PropValue)

/- Names of the standard events (`ScarabEventType`, a `StrEnum`). -/
namespace ScarabEventType

def NAMED_EVENT : String := "scarab.named-event"

def ENTITY_CREATED : String := "scarab.entity.created"

def ENTITY_DESTROYED : String := "scarab.entity.destroyed"

def ENTITY_CHANGED : String := "scarab.entity.changed"

def TIME_UPDATED : String := "scarab.time.updated"

def SIMULATION_START : String := "scarab.simulation.start"

def SIMULATION_PAUSE : String := "scarab.simulation.pause"

def SIMULATION_RESUME : String := "scarab.simulation.resume"

def SIMULATION_SHUTDOWN : String := "scarab.simulation.shutdown"

end ScarabEventType

/-- The convenience list `standard_event_names` from `events.py`. -/
def standard_event_names : List String :=
  [ScarabEventType.NAMED_EVENT, ScarabEventType.ENTITY_CREATED,
   ScarabEventType.ENTITY_DESTROYED, ScarabEventType.ENTITY_CHANGED,
   ScarabEventType.TIME_UPDATED, ScarabEventType.SIMULATION_START,
   ScarabEventType.SIMULATION_PAUSE, ScarabEventType.SIMULATION_RESUME,
   ScarabEventType.SIMULATION_SHUTDOWN]

/-- The `Event` object of `events.py`.  The base class carries
`event_name`, `sim_time`, `target_id` and `sender_id`; the subclasses
add `entity`, `changed_properties` and `previous_time`.  An attribute
that a given Python event object does not have is `none` here. -/
structure Event where
  event_name : String
  sim_time : Option Int := Option.none
  target_id : Option String := Option.none
  sender_id : Option String := Option.none
  entity : Option Props := Option.none
  changed_properties : Option (List String) := Option.none
  previous_time : Option Int := Option.none
deriving DecidableEq, Repr

/-- Constructor of `EntityCreatedEvent`. -/
def EntityCreatedEvent (entity_props : Props) (sim_time : Option Int := Option.none) : Event :=
  { event_name := ScarabEventType.ENTITY_CREATED, sim_time := sim_time,
    entity := some entity_props }

/-- Constructor of `EntityChangedEvent`. -/
def EntityChangedEvent (entity_props : Props) (changed_props : List String)
    (sim_time : Option Int := Option.none) : Event :=
  { event_name := ScarabEventType.ENTITY_CHANGED, sim_time := sim_time,
    entity := some entity_props, changed_properties := some changed_props }

/-- Constructor of `EntityDestroyedEvent`. -/
def EntityDestroyedEvent (entity_props : Props) (sim_time : Option Int := Option.none) : Event :=
  { event_name := ScarabEventType.ENTITY_DESTROYED, sim_time := sim_time,
    entity := some entity_props }

/-- Constructor of `SimulationStartEvent`. -/
def SimulationStartEvent (sim_time : Option Int) : Event :=
  { event_name := ScarabEventType.SIMULATION_START, sim_time := sim_time }

/-- Constructor of `SimulationPauseEvent`. -/
def SimulationPauseEvent (sim_time : Option Int) : Event :=
  { event_name := ScarabEventType.SIMULATION_PAUSE, sim_time := sim_time }

/-- Constructor of `SimulationResumeEvent`. -/
def SimulationResumeEvent (sim_time : Option Int := Option.none) : Event :=
  { event_name := ScarabEventType.SIMULATION_RESUME, sim_time := sim_time }

/-- Constructor of `SimulationShutdownEvent`. -/
def SimulationShutdownEvent (sim_time : Option Int := Option.none) : Event :=
  { event_name := ScarabEventType.SIMULATION_SHUTDOWN, sim_time := sim_time }

/-- Constructor of `TimeUpdatedEvent`.  The Python constructor defaults
`previous_time` to `sim_time - 1` (a `TypeError` when `sim_time` is
`None`) and raises `ValueError` when `previous_time >= sim_time`. -/
def TimeUpdatedEvent (sim_time : Option Int) (previous_time : Option Int := Option.none) :
    Except String Event :=
  match sim_time with
  | Option.none => .error "TypeError"
  | some t =>
    let prev := previous_time.getD (t - 1)
    if prev ≥ t then
      .error "Attempting to update from current or future time"
    else
      .ok { event_name := ScarabEventType.TIME_UPDATED, sim_time := some t,
            previous_time := some prev }

/-! ## The event queues (`_event_queue.py`) -/

/-- The exceptions the queue code can raise. -/
inductive QueueError where
  | timeInPast
  | typeError
  | keyError
  | indexError
deriving DecidableEq, Repr

/-- The backing store of a `TimeEventQueue`: a `SortedDict` from time to
the FIFO list of events put at that time, modelled as an association
list with strictly increasing keys. -/
abbrev TimeDict := List (Int × List Event)

/-- Dictionary lookup (`dict.get(k)`). -/
def TimeDict.getKey? (k : Int) : TimeDict → Option (List Event)
  | [] => Option.none
  | (k', v) :: rest => if k = k' then some v else TimeDict.getKey? k rest

/-- Dictionary membership (`k in dict`). -/
def TimeDict.containsKey (k : Int) (d : TimeDict) : Bool :=
  (TimeDict.getKey? k d).isSome

/-- Dictionary update (`dict[k] = v`), keeping keys sorted as
`SortedDict` does. -/
def TimeDict.setKey (k : Int) (v : List Event) : TimeDict → TimeDict
  | [] => [(k, v)]
  | (k', v') :: rest =>
    if k < k' then (k, v) :: (k', v') :: rest
    else if k = k' then (k, v) :: rest
    else (k', v') :: TimeDict.setKey k v rest

/-- Dictionary deletion (`del dict[k]`); the caller checks presence. -/
def TimeDict.delKey (k : Int) : TimeDict → TimeDict
  | [] => []
  | (k', v') :: rest => if k = k' then rest else (k', v') :: TimeDict.delKey k rest

/-- The first key of the sorted dict (`next(iter(dict), None)`). -/
def TimeDict.firstKey : TimeDict → Option Int
  | [] => Option.none
  | (k, _) :: _ => some k

/-- The first event of the first nonempty bucket, in key order; used by
`next_event_time`. -/
def TimeDict.firstNonempty : TimeDict → Option Event
  | [] => Option.none
  | (_, []) :: rest => TimeDict.firstNonempty rest
  | (_, e :: _) :: _ => some e

/-- The `TimeEventQueue` class.  `hasCurrent` records whether
`_current_queue` is set; since the current bucket is always the bucket
at `_min_event_time` (Python aliases the dict entry's list object), the
current bucket's contents live in `event_queue` at that key.  After the
queue reports empty, the current bucket object dangles: `hasCurrent` is
true but `min_event_time` is no longer a key. -/
structure TimeEventQueue where
  event_queue : TimeDict := []
  hasCurrent : Bool := false
  min_event_time : Int := 0
  length : Int := 0
deriving DecidableEq, Repr

/-- The `min_add_time` property. -/
def TimeEventQueue.min_add_time (q : TimeEventQueue) : Int :=
  q.min_event_time + 1

/-- The `next_event_time` property: the `sim_time` of the first event of
the first nonempty bucket, or 0 when every bucket is empty.  A queued
event always has a concrete `sim_time` (see `put`); the `getD 0` only
covers the unreachable `none` case. -/
def TimeEventQueue.next_event_time (q : TimeEventQueue) : Int :=
  match TimeDict.firstNonempty q.event_queue with
  | some e => e.sim_time.getD 0
  | Option.none => 0

/-- `TimeEventQueue.put`: raises `ValueError` (time in the past) when
the event's time is below `min_add_time`; comparing `None` with an int
is a `TypeError` in Python. -/
def TimeEventQueue.put (q : TimeEventQueue) (event : Event) : Except QueueError TimeEventQueue :=
  match event.sim_time with
  | Option.none => .error .typeError
  | some evt_time =>
    if evt_time < q.min_add_time then .error .timeInPast
    else
      let queue := (TimeDict.getKey? evt_time q.event_queue).getD []
      .ok { q with event_queue := TimeDict.setKey evt_time (queue ++ [event]) q.event_queue,
                   length := q.length + 1 }

/-- The bucket the current queue aliases: the dict entry at
`min_event_time`, or the dangling empty list after the key was
deleted. -/
def TimeEventQueue.currentList (q : TimeEventQueue) : List Event :=
  (TimeDict.getKey? q.min_event_time q.event_queue).getD []

/-- Pop the head of the current bucket (`self._current_queue.pop(0)`);
`IndexError` on an empty list. -/
def TimeEventQueue.popCurrent (q : TimeEventQueue) :
    Except QueueError (Option Event × TimeEventQueue) :=
  match q.currentList with
  | [] => .error .indexError
  | e :: rest =>
    .ok (some e, { q with event_queue := TimeDict.setKey q.min_event_time rest q.event_queue,
                          length := q.length - 1 })

/-- Move to the next bucket: take the first key of the dict; if there is
none return `None`, otherwise make that bucket current and pop. -/
def TimeEventQueue.refill (q : TimeEventQueue) :
    Except QueueError (Option Event × TimeEventQueue) :=
  match TimeDict.firstKey q.event_queue with
  | Option.none => .ok (Option.none, q)
  | some next_key =>
    TimeEventQueue.popCurrent { q with min_event_time := next_key, hasCurrent := true }

/-- `TimeEventQueue.next_event`: when the current bucket is unset or
exhausted, delete the exhausted bucket (`del` raises `KeyError` when the
key is already gone) and move to the first remaining bucket; then pop
the head of the current bucket. -/
def TimeEventQueue.next_event (q : TimeEventQueue) :
    Except QueueError (Option Event × TimeEventQueue) :=
  if ¬ q.hasCurrent ∨ q.currentList = [] then
    if q.hasCurrent ∧ q.currentList = [] then
      if TimeDict.containsKey q.min_event_time q.event_queue then
        TimeEventQueue.refill
          { q with event_queue := TimeDict.delKey q.min_event_time q.event_queue }
      else .error .keyError
    else
      TimeEventQueue.refill q
  else
    TimeEventQueue.popCurrent q

/-- All pending events of a band, in the order the queue would drain
them: buckets in key order, FIFO within a bucket. -/
def TimeEventQueue.flatten (q : TimeEventQueue) : List Event :=
  (q.event_queue.map Prod.snd).flatten

/-! ## The ordered event queue -/

/-- `OrderedEventQueue._event_name_to_idx_map`: the band index a
standard event name routes to. -/
def event_name_to_idx_map (name : String) : Option Nat :=
  if name = ScarabEventType.ENTITY_CREATED then some 0
  else if name = ScarabEventType.ENTITY_CHANGED then some 1
  else if name = ScarabEventType.ENTITY_DESTROYED then some 2
  else if name = ScarabEventType.NAMED_EVENT then some 3
  else Option.none

/-- The `OrderedEventQueue` class: four `TimeEventQueue` bands, in
priority order create / update / destroy / other. -/
structure OrderedEventQueue where
  q0 : TimeEventQueue := {}
  q1 : TimeEventQueue := {}
  q2 : TimeEventQueue := {}
  q3 : TimeEventQueue := {}
deriving DecidableEq, Repr

/-- The `_event_queues` list. -/
def OrderedEventQueue.event_queues (q : OrderedEventQueue) : List TimeEventQueue :=
  [q.q0, q.q1, q.q2, q.q3]

/-- Indexing into `_event_queues`. -/
def OrderedEventQueue.band (q : OrderedEventQueue) : Nat → TimeEventQueue
  | 0 => q.q0
  | 1 => q.q1
  | 2 => q.q2
  | _ => q.q3

/-- Writing one entry of `_event_queues`. -/
def OrderedEventQueue.setBand (q : OrderedEventQueue) : Nat → TimeEventQueue → OrderedEventQueue
  | 0, b => { q with q0 := b }
  | 1, b => { q with q1 := b }
  | 2, b => { q with q2 := b }
  | _, b => { q with q3 := b }

/-- The band `OrderedEventQueue.put` sends an event to: band 3 for
non-standard (named) events, the mapped band for the four queued
standard kinds, and `none` (a `KeyError`) for the five standard kinds
missing from the map. -/
def putIdxOf (event : Event) : Option Nat :=
  if event.event_name ∈ standard_event_names then event_name_to_idx_map event.event_name
  else some 3

/-- `OrderedEventQueue.next_event_time`: the minimum of the nonzero band
minima, or 0 when all bands are empty. -/
def OrderedEventQueue.next_event_time (q : OrderedEventQueue) : Int :=
  let evt_times := (q.event_queues.map TimeEventQueue.next_event_time).filter (fun t => t != 0)
  match evt_times.min? with
  | some m => m
  | Option.none => 0

/-- `OrderedEventQueue.put`: route the event by name to its band's
`put`.  A standard name that is not in the index map raises
`KeyError`. -/
def OrderedEventQueue.put (q : OrderedEventQueue) (event : Event) :
    Except QueueError OrderedEventQueue :=
  if event.event_name ∈ standard_event_names then
    match event_name_to_idx_map event.event_name with
    | some i => (TimeEventQueue.put (q.band i) event).map (q.setBand i)
    | Option.none => .error .keyError
  else
    (TimeEventQueue.put q.q3 event).map (q.setBand 3)

/-- The loop body of `OrderedEventQueue.next_event`: scan the bands in
priority order for the first one whose `next_event_time` equals the
global minimum and drain it. -/
def OrderedEventQueue.nextLoop (q : OrderedEventQueue) (next_time : Int) :
    List Nat → Except QueueError (Option Event × OrderedEventQueue)
  | [] => .ok (Option.none, q)
  | i :: rest =>
    if (q.band i).next_event_time = next_time then
      (TimeEventQueue.next_event (q.band i)).map (fun r => (r.1, q.setBand i r.2))
    else
      OrderedEventQueue.nextLoop q next_time rest

/-- `OrderedEventQueue.next_event`. -/
def OrderedEventQueue.next_event (q : OrderedEventQueue) :
    Except QueueError (Option Event × OrderedEventQueue) :=
  OrderedEventQueue.nextLoop q q.next_event_time [0, 1, 2, 3]

/-- All pending events of the ordered queue (used for specification
only). -/
def OrderedEventQueue.pendingCount (q : OrderedEventQueue) : Nat :=
  (q.event_queues.map (fun b => b.flatten.length)).sum

/-- The stored FIFO bucket of band `i` at time `t`. -/
def OrderedEventQueue.bucketAt (q : OrderedEventQueue) (i : Nat) (t : Int) : List Event :=
  (TimeDict.getKey? t (q.band i).event_queue).getD []

/-- Drain the queue with explicit fuel, collecting returned events. -/
def OrderedEventQueue.drainFuel : Nat → OrderedEventQueue → List Event
  | 0, _ => []
  | n + 1, q =>
    match q.next_event with
    | .ok (some e, q') => e :: OrderedEventQueue.drainFuel n q'
    | _ => []

/-- Drain every pending event of the queue. -/
def OrderedEventQueue.drainAll (q : OrderedEventQueue) : List Event :=
  OrderedEventQueue.drainFuel q.pendingCount q

/-- Apply a list of `put`s in order, keeping the accepted events (a
failed `put` raises in Python and leaves the queue unchanged; here the
caller drops the rejected event and continues with the old state). -/
def OrderedEventQueue.putAll : List Event → OrderedEventQueue → OrderedEventQueue × List Event
  | [], q => (q, [])
  | e :: rest, q =>
    match q.put e with
    | .ok q' =>
      let r := OrderedEventQueue.putAll rest q'
      (r.1, e :: r.2)
    | .error _ => OrderedEventQueue.putAll rest q

/-! ## Entities (`entity.py`) -/

/-- A user entity instance as the framework sees it: the scarab
attributes set by `EntityWrapper.__call__` plus the remaining public
data attributes of the instance `__dict__` (in insertion order).
`scarab_conforms_to` holds the declared schema's field names
(`asdict(...).keys()` of the dataclass). -/
structure EntityObj where
  scarab_name : String
  scarab_id : String
  scarab_conforms_to : Option (List String) := Option.none
  fields : List (String × PropValue) := []
deriving DecidableEq, Repr

/-- Reading `getattr(obj, p)` for a schema property; the source notes
the existence "should have been already check"ed, so the fallback is
unreachable for conforming entities. -/
def EntityObj.getattrP (obj : EntityObj) (p : String) : PropValue :=
  (List.lookup p obj.fields).getD PropValue.pyNone

/-- `scarab_properties(obj)`: `scarab_name` and `scarab_id` first, then
either the schema fields (when a schema is declared) or all public
instance attributes. -/
def scarab_properties (obj : EntityObj) : Props :=
  let props : Props := [("scarab_name", PropValue.str obj.scarab_name),
                        ("scarab_id", PropValue.str obj.scarab_id)]
  match obj.scarab_conforms_to with
  | some conforming => props ++ conforming.map (fun p => (p, obj.getattrP p))
  | Option.none => props ++ obj.fields

/-- `EntityWrapper._scarab_does_conform`: collect the declared schema
fields missing from the instance `__dict__` and raise a
`ScarabException` naming them when any are missing. -/
def _scarab_does_conform (scarab_conforms_to : Option (List String)) (instanceDict : Props) :
    Except (List String) Bool :=
  match scarab_conforms_to with
  | Option.none => .ok true
  | some conforming_properties =>
    let missing_properties :=
      conforming_properties.filter (fun p => (List.lookup p instanceDict).isNone)
    if missing_properties ≠ [] then .error missing_properties
    else .ok true

/-! ## The event router (`_event_router.py`) -/

/-- The `EntityAndHandler` named tuple.  A handler either returns or
raises; the raised exception is modelled by a message string. -/
structure EntityAndHandler where
  entity : EntityObj
  handler : Event → Except String Unit

/-- What a `_handle_*` call did: the owning entity ids of the handlers
that were called, in call order, and the `(event, entity properties,
exception)` triples logged by `_log_event_handling_error`. -/
structure RouteResult where
  invoked : List String := []
  errors : List (Event × Props × String) := []
deriving DecidableEq, Repr

/-- The `EventRouter` dispatch tables. -/
structure EventRouter where
  entity_created_handlers : List (String × List EntityAndHandler) := []
  entity_changed_handlers : List (String × List EntityAndHandler) := []
  entity_destroyed_handlers : List (String × List EntityAndHandler) := []
  simulation_start_handlers : List EntityAndHandler := []
  simulation_pause_handlers : List EntityAndHandler := []
  simulation_resume_handlers : List EntityAndHandler := []
  simulation_shutdown_handlers : List EntityAndHandler := []
  time_updated_handlers : List EntityAndHandler := []
  named_event_handlers : List (String × List EntityAndHandler) := []

/-- The handler loop shared verbatim by every `_handle_*` method: for
each subscribed handler, call it inside `try`; on an exception, log
`(event, entity, error)` via `_log_event_handling_error` and continue
with the next handler. -/
def handleHandlers (event : Event) : List EntityAndHandler → RouteResult
  | [] => {}
  | h :: rest =>
    let r := handleHandlers event rest
    match h.handler event with
    | .ok _ => { r with invoked := h.entity.scarab_id :: r.invoked }
    | .error ex =>
      { invoked := h.entity.scarab_id :: r.invoked,
        errors := (event, scarab_properties h.entity, ex) :: r.errors }

/-- Reading `event.entity.scarab_name`: the kind name of the subject
entity of an entity-lifecycle event. -/
def entityNameOfEvent (event : Event) : String :=
  match List.lookup "scarab_name" (event.entity.getD []) with
  | some (PropValue.str s) => s
  | _ => ""

/-- `EventRouter._handle_entity_created`: look up the subscribers for
the subject's kind name and run the handler loop.  The source has no
self-notification filter here. -/
def EventRouter._handle_entity_created (router : EventRouter) (event : Event) : RouteResult :=
  handleHandlers event
    ((List.lookup (entityNameOfEvent event) router.entity_created_handlers).getD [])

/-- `EventRouter._handle_entity_updated` (ENTITY_CHANGED events). -/
def EventRouter._handle_entity_updated (router : EventRouter) (event : Event) : RouteResult :=
  handleHandlers event
    ((List.lookup (entityNameOfEvent event) router.entity_changed_handlers).getD [])

/-- `EventRouter._handle_entity_destroyed`. -/
def EventRouter._handle_entity_destroyed (router : EventRouter) (event : Event) : RouteResult :=
  handleHandlers event
    ((List.lookup (entityNameOfEvent event) router.entity_destroyed_handlers).getD [])

/-- `EventRouter._handle_named_event`: subscribers are keyed by the
event's name. -/
def EventRouter._handle_named_event (router : EventRouter) (event : Event) : RouteResult :=
  handleHandlers event
    ((List.lookup event.event_name router.named_event_handlers).getD [])

/-! ## The simulation driver (`simulation.py`) -/

/-- The `SimulationState` enum. -/
inductive SimulationState where
  | paused
  | running
  | shutting_down
deriving DecidableEq, Repr

/-- The driver state the verified claims touch: lifecycle state, clock,
bounded-run target, live entities keyed by sim id, and the event
queue. -/
structure Simulation where
  current_state : SimulationState := SimulationState.paused
  previous_state : SimulationState := SimulationState.paused
  current_time : Int := 0
  run_to : Int := -1
  entities : List (String × EntityObj) := []
  event_queue : OrderedEventQueue := {}
deriving Repr

/-- A freshly constructed simulation. -/
def Simulation.init : Simulation := {}

/-- The `Simulation._immediate_events` list. -/
def Simulation._immediate_events : List String :=
  [ScarabEventType.SIMULATION_START, ScarabEventType.SIMULATION_PAUSE,
   ScarabEventType.SIMULATION_RESUME, ScarabEventType.SIMULATION_SHUTDOWN,
   ScarabEventType.TIME_UPDATED]

/-- What `send_event` did with the event.  `immediate` records the event
passed to `self._route_event(event)`: that call builds a coroutine from
the `async` method inside the synchronous `send_event` without awaiting
or scheduling it, so the routing body never runs and the event is
dropped. -/
inductive SendOutcome where
  | immediate (event : Event)
  | enqueued (event : Event)
deriving DecidableEq, Repr

/-- `Simulation.send_event`: immediate kinds get `sim_time := clock` and
the un-awaited `_route_event` call; every other event is defaulted to
`clock + 1` when it has no time and put into the queue (a failed put
propagates). -/
def Simulation.send_event (sim : Simulation) (event : Event) :
    Except QueueError (Simulation × SendOutcome) :=
  if event.event_name ∈ Simulation._immediate_events then
    let event := { event with sim_time := some sim.current_time }
    .ok (sim, SendOutcome.immediate event)
  else
    let event :=
      if event.sim_time = Option.none then { event with sim_time := some (sim.current_time + 1) }
      else event
    match sim.event_queue.put event with
    | .ok q => .ok ({ sim with event_queue := q }, SendOutcome.enqueued event)
    | .error err => .error err

/-- `Simulation._compare_properties`: names changed in place, then names
only in the new dict (added), then names only in the old dict
(deleted), in iteration order. -/
def Simulation._compare_properties (old_properties new_properties : Props) : List String :=
  let changed := new_properties.foldl (fun acc kv =>
    match List.lookup kv.1 old_properties with
    | some v => if v ≠ kv.2 then acc ++ [kv.1] else acc
    | Option.none => acc ++ [kv.1]) []
  old_properties.foldl (fun acc kv =>
    if (List.lookup kv.1 new_properties).isNone then acc ++ [kv.1] else acc) changed

/-- `Simulation._get_before_entity_properties`: snapshot every live
entity, keyed by its `scarab_id`. -/
def Simulation._get_before_entity_properties (sim : Simulation) : List (String × Props) :=
  sim.entities.map (fun kv => (kv.2.scarab_id, scarab_properties kv.2))

/-- The loop of `Simulation._send_entity_change_events`: for each
pre-step snapshot whose entity is still live, compare against a fresh
snapshot and `send_event` an `EntityChangedEvent` when anything
changed.  Returns the state after all sends together with the events
sent, in order. -/
def Simulation.sendChangeLoop (sim : Simulation) :
    List (String × Props) → Except QueueError (Simulation × List Event)
  | [] => .ok (sim, [])
  | (entityID, old_properties) :: rest =>
    match List.lookup entityID sim.entities with
    | Option.none => Simulation.sendChangeLoop sim rest
    | some entity =>
      let new_properties := scarab_properties entity
      let changed_properties := Simulation._compare_properties old_properties new_properties
      if 0 < changed_properties.length then
        match sim.send_event (EntityChangedEvent (scarab_properties entity) changed_properties) with
        | .ok (sim', outcome) =>
          (Simulation.sendChangeLoop sim' rest).map (fun r =>
            (r.1, (match outcome with
                   | SendOutcome.immediate e => e
                   | SendOutcome.enqueued e => e) :: r.2))
        | .error err => .error err
      else Simulation.sendChangeLoop sim rest

/-- `Simulation._send_entity_change_events`. -/
def Simulation._send_entity_change_events (sim : Simulation)
    (before_properties : List (String × Props)) : Except QueueError (Simulation × List Event) :=
  Simulation.sendChangeLoop sim before_properties

/-- The change events `_send_entity_change_events` should emit, stated
directly: one `EntityChangedEvent` at `clock + 1` for each pre-step
snapshot whose entity is still live and whose fresh snapshot differs. -/
def Simulation.expectedChangeEvents (sim : Simulation)
    (before_properties : List (String × Props)) : List Event :=
  before_properties.filterMap (fun kv =>
    match List.lookup kv.1 sim.entities with
    | Option.none => Option.none
    | some entity =>
      let ch := Simulation._compare_properties kv.2 (scarab_properties entity)
      if 0 < ch.length then
        some { EntityChangedEvent (scarab_properties entity) ch with
               sim_time := some (sim.current_time + 1) }
      else Option.none)

/-- How `_run_steps` reacts to its arguments before entering the loop. -/
inductive RunStepsEntry where
  | earlyReturn
  | shutdownError (sim : Simulation)
  | proceeds (sim : Simulation)
deriving Repr

/-- Python truthiness of the optional `nbr_steps` argument: `None` and
`0` are falsy. -/
def truthy (n : Option Int) : Bool :=
  match n with
  | some v => v != 0
  | Option.none => false

/-- The entry checks of `Simulation._run_steps`: the guard
`if nbr_steps and nbr_steps <= 0` logs and returns; then `run_to` is set
when `nbr_steps` is truthy; then running after shutdown raises
`RuntimeError`; otherwise the state becomes paused or running and the
step loop is entered. -/
def Simulation._run_steps_entry (sim : Simulation) (nbr_steps : Option Int)
    (start_paused : Bool) : RunStepsEntry :=
  if truthy nbr_steps ∧ nbr_steps.getD 0 ≤ 0 then
    RunStepsEntry.earlyReturn
  else
    let sim :=
      if truthy nbr_steps then { sim with run_to := sim.current_time + nbr_steps.getD 0 }
      else sim
    if sim.current_state = SimulationState.shutting_down then
      RunStepsEntry.shutdownError sim
    else
      RunStepsEntry.proceeds
        { sim with current_state :=
            if start_paused then SimulationState.paused else SimulationState.running }

/-- The condition under which one iteration of the `_run_steps` loop
performs a step (`self._current_time += 1` followed by `_step`). -/
def Simulation.loopWouldStep (sim : Simulation) : Bool :=
  decide (sim.current_state = SimulationState.running ∧
    (sim.run_to = -1 ∨ sim.current_time < sim.run_to))

/-! ## Event serialization (`events.py`) -/

/-- The wire form of `Event.to_json`: the dict of the event object's
public attributes (an attribute the object lacks is `none`). -/
structure WireJson where
  event_name : String
  sim_time : Option Int := Option.none
  target_id : Option String := Option.none
  sender_id : Option String := Option.none
  entity : Option Props := Option.none
  changed_properties : Option (List String) := Option.none
  previous_time : Option Int := Option.none
deriving DecidableEq, Repr

/-- `Event.to_json`. -/
def Event.to_json (e : Event) : WireJson :=
  { event_name := e.event_name, sim_time := e.sim_time, target_id := e.target_id,
    sender_id := e.sender_id, entity := e.entity,
    changed_properties := e.changed_properties, previous_time := e.previous_time }

/-- `EventFactory.create_event_from_json`: reconstruct the event by
name.  The standard kinds are rebuilt through their constructors (which
take only payload and `sim_time`); anything else becomes a generic
`Event` keeping `target_id` and `sender_id`.  The `TimeUpdatedEvent`
constructor can raise. -/
def EventFactory.create_event_from_json (j : WireJson) : Except String (Option Event) :=
  let event_name := j.event_name
  let sim_time := j.sim_time
  let target_id := j.target_id
  let sender_id := j.sender_id
  if event_name = ScarabEventType.SIMULATION_START then
    .ok (some (SimulationStartEvent sim_time))
  else if event_name = ScarabEventType.SIMULATION_PAUSE then
    .ok (some (SimulationPauseEvent sim_time))
  else if event_name = ScarabEventType.SIMULATION_RESUME then
    .ok (some (SimulationResumeEvent sim_time))
  else if event_name = ScarabEventType.SIMULATION_SHUTDOWN then
    .ok (some (SimulationShutdownEvent sim_time))
  else if event_name = ScarabEventType.ENTITY_CREATED ∧ j.entity.isSome then
    .ok (some (EntityCreatedEvent (j.entity.getD []) sim_time))
  else if event_name = ScarabEventType.ENTITY_CHANGED ∧ j.entity.isSome ∧
      j.changed_properties.isSome then
    .ok (some (EntityChangedEvent (j.entity.getD []) (j.changed_properties.getD []) sim_time))
  else if event_name = ScarabEventType.ENTITY_DESTROYED ∧ j.entity.isSome then
    .ok (some (EntityDestroyedEvent (j.entity.getD []) sim_time))
  else if event_name = ScarabEventType.TIME_UPDATED ∧ j.previous_time.isSome then
    (TimeUpdatedEvent sim_time j.previous_time).map some
  else
    .ok (some { event_name := event_name, sim_time := sim_time, target_id := target_id,
                sender_id := sender_id })

/-- The event names `create_event_from_json` rebuilds through a
constructor (all reserved kinds except the named-event kind, which
falls through to the generic branch). -/
def handled_wire_names : List String :=
  [ScarabEventType.SIMULATION_START, ScarabEventType.SIMULATION_PAUSE,
   ScarabEventType.SIMULATION_RESUME, ScarabEventType.SIMULATION_SHUTDOWN,
   ScarabEventType.ENTITY_CREATED, ScarabEventType.ENTITY_CHANGED,
   ScarabEventType.ENTITY_DESTROYED, ScarabEventType.TIME_UPDATED]

/-- Events shaped like the output of the `events.py` constructors: each
kind carries exactly its own payload attributes, and a time-updated
event has `previous_time < sim_time` (its constructor enforces
this). -/
def WellFormedEvent (e : Event) : Prop :=
  (e.event_name = ScarabEventType.ENTITY_CREATED →
    e.entity.isSome ∧ e.changed_properties = Option.none ∧ e.previous_time = Option.none) ∧
  (e.event_name = ScarabEventType.ENTITY_CHANGED →
    e.entity.isSome ∧ e.changed_properties.isSome ∧ e.previous_time = Option.none) ∧
  (e.event_name = ScarabEventType.ENTITY_DESTROYED →
    e.entity.isSome ∧ e.changed_properties = Option.none ∧ e.previous_time = Option.none) ∧
  (e.event_name = ScarabEventType.TIME_UPDATED →
    (∃ t p, e.sim_time = some t ∧ e.previous_time = some p ∧ p < t) ∧
    e.entity = Option.none ∧ e.changed_properties = Option.none) ∧
  (e.event_name ∈ [ScarabEventType.SIMULATION_START, ScarabEventType.SIMULATION_PAUSE,
      ScarabEventType.SIMULATION_RESUME, ScarabEventType.SIMULATION_SHUTDOWN] →
    e.entity = Option.none ∧ e.changed_properties = Option.none ∧
    e.previous_time = Option.none) ∧
  (e.event_name ∉ handled_wire_names →
    e.entity = Option.none ∧ e.changed_properties = Option.none ∧
    e.previous_time = Option.none)

/-! ## Dictionary lemmas for the queue proofs -/

/-- Bucket of a band at a time (empty when the key is absent). -/
def TimeEventQueue.bucketOfT (b : TimeEventQueue) (t : Int) : List Event :=
  (TimeDict.getKey? t b.event_queue).getD []

/-- All pending events of the ordered queue, in band-major order. -/
def OrderedEventQueue.pendingEvents (q : OrderedEventQueue) : List Event :=
  (q.event_queues.map TimeEventQueue.flatten).flatten

/-- A member of `setKey k v d` is the written pair or an original
pair. -/
theorem mem_setKey_weak {kv : Int × List Event} {k : Int} {v : List Event} {d : TimeDict}
    (h : kv ∈ TimeDict.setKey k v d) : kv = (k, v) ∨ kv ∈ d := by
  induction d with
  | nil => simpa [TimeDict.setKey] using h
  | cons kv' rest ih =>
    by_cases h1 : k < kv'.1
    · simp only [TimeDict.setKey, if_pos h1] at h
      rcases List.mem_cons.mp h with heq | hmem
      · exact Or.inl heq
      · exact Or.inr hmem
    · by_cases h2 : k = kv'.1
      · simp only [TimeDict.setKey, if_neg h1, if_pos h2] at h
        rcases List.mem_cons.mp h with heq | hmem
        · exact Or.inl heq
        · exact Or.inr (List.mem_cons_of_mem _ hmem)
      · simp only [TimeDict.setKey, if_neg h1, if_neg h2] at h
        rcases List.mem_cons.mp h with heq | hmem
        · exact Or.inr (heq ▸ List.mem_cons_self _ _)
        · rcases ih hmem with h' | h'
          · exact Or.inl h'
          · exact Or.inr (List.mem_cons_of_mem _ h')

/-- A successful `getKey?` exposes a member pair. -/
theorem getKey?_mem {k : Int} {l : List Event} {d : TimeDict}
    (h : TimeDict.getKey? k d = some l) : (k, l) ∈ d := by
  induction d with
  | nil => simp [TimeDict.getKey?] at h
  | cons kv rest ih =>
    by_cases he : k = kv.1
    · simp only [TimeDict.getKey?, if_pos he] at h
      cases h
      exact he ▸ (by simp)
    · simp only [TimeDict.getKey?, if_neg he] at h
      exact List.mem_cons_of_mem _ (ih h)

/-- Deletion yields a sublist. -/
theorem delKey_sublist (k : Int) (d : TimeDict) : (TimeDict.delKey k d).Sublist d := by
  induction d with
  | nil => simp [TimeDict.delKey]
  | cons kv rest ih =>
    by_cases he : k = kv.1
    · simp only [TimeDict.delKey, if_pos he]
      exact (List.sublist_cons_self kv rest)
    · simp only [TimeDict.delKey, if_neg he]
      exact List.Sublist.cons₂ kv ih

/-- A first key belongs to the dict. -/
theorem firstKey_mem {d : TimeDict} {k : Int} (h : TimeDict.firstKey d = some k) :
    ∃ l, (k, l) ∈ d := by
  cases d with
  | nil => simp [TimeDict.firstKey] at h
  | cons kv rest =>
    simp only [TimeDict.firstKey] at h
    cases h
    exact ⟨kv.2, by simp⟩

/-- `firstNonempty` is the head of the flattened buckets. -/
theorem firstNonempty_eq_head (d : TimeDict) :
    TimeDict.firstNonempty d = ((d.map Prod.snd).flatten).head? := by
  induction d with
  | nil => rfl
  | cons kv rest ih =>
    obtain ⟨k, l⟩ := kv
    cases l with
    | nil => simpa [TimeDict.firstNonempty] using ih
    | cons e es => simp [TimeDict.firstNonempty]

/-- A first nonempty event lies in some bucket. -/
theorem firstNonempty_mem {d : TimeDict} {e : Event}
    (h : TimeDict.firstNonempty d = some e) : ∃ kv ∈ d, e ∈ kv.2 := by
  induction d with
  | nil => simp [TimeDict.firstNonempty] at h
  | cons kv rest ih =>
    obtain ⟨k, l⟩ := kv
    cases l with
    | nil =>
      simp only [TimeDict.firstNonempty] at h
      obtain ⟨kv', h1, h2⟩ := ih h
      exact ⟨kv', List.mem_cons_of_mem _ h1, h2⟩
    | cons e₀ es =>
      simp only [TimeDict.firstNonempty] at h
      injection h with h
      exact ⟨(k, e₀ :: es), by simp, by rw [h]; exact List.mem_cons_self _ _⟩

/-- `setKey` keeps the keys strictly sorted. -/
theorem setKey_pairwise {k : Int} {v : List Event} {d : TimeDict}
    (hd : d.Pairwise (fun x y => x.1 < y.1)) :
    (TimeDict.setKey k v d).Pairwise (fun x y => x.1 < y.1) := by
  induction d with
  | nil => simp [TimeDict.setKey]
  | cons kv rest ih =>
    rw [List.pairwise_cons] at hd
    obtain ⟨hhead, hrest⟩ := hd
    by_cases h1 : k < kv.1
    · simp only [TimeDict.setKey, if_pos h1]
      rw [List.pairwise_cons]
      refine ⟨?_, List.Pairwise.cons hhead hrest⟩
      intro y hy
      rcases List.mem_cons.mp hy with rfl | hy'
      · exact h1
      · exact lt_trans h1 (hhead y hy')
    · by_cases h2 : k = kv.1
      · simp only [TimeDict.setKey, if_neg h1, if_pos h2]
        rw [List.pairwise_cons]
        exact ⟨fun y hy => h2 ▸ hhead y hy, hrest⟩
      · simp only [TimeDict.setKey, if_neg h1, if_neg h2]
        rw [List.pairwise_cons]
        refine ⟨?_, ih hrest⟩
        intro y hy
        rcases mem_setKey_weak hy with rfl | hy'
        · omega
        · exact hhead y hy'

/-- Writing a key and reading it back. -/
theorem getKey?_setKey_self (k : Int) (v : List Event) (d : TimeDict) :
    TimeDict.getKey? k (TimeDict.setKey k v d) = some v := by
  induction d with
  | nil => simp [TimeDict.setKey, TimeDict.getKey?]
  | cons kv rest ih =>
    by_cases h1 : k < kv.1
    · simp [TimeDict.setKey, TimeDict.getKey?, h1]
    · by_cases h2 : k = kv.1 <;> simp [TimeDict.setKey, TimeDict.getKey?, h1, h2, ih]

/-- Writing one key leaves the other keys unchanged. -/
theorem getKey?_setKey_other (k k' : Int) (v : List Event) (d : TimeDict) (hne : k' ≠ k) :
    TimeDict.getKey? k' (TimeDict.setKey k v d) = TimeDict.getKey? k' d := by
  induction d with
  | nil => simp [TimeDict.setKey, TimeDict.getKey?, hne]
  | cons kv rest ih =>
    by_cases h1 : k < kv.1
    · simp [TimeDict.setKey, TimeDict.getKey?, h1, hne]
    · by_cases h2 : k = kv.1
      · subst h2; simp [TimeDict.setKey, TimeDict.getKey?, h1, hne]
      · by_cases h3 : k' = kv.1 <;> simp [TimeDict.setKey, TimeDict.getKey?, h1, h2, h3, ih]

/-- A key absent from every pair looks up to `none`. -/
theorem getKey?_eq_none {k : Int} {d : TimeDict} (h : ∀ kv ∈ d, kv.1 ≠ k) :
    TimeDict.getKey? k d = Option.none := by
  induction d with
  | nil => rfl
  | cons kv rest ih =>
    have hne : k ≠ kv.1 := fun he => (h kv (by simp)) he.symm
    simp only [TimeDict.getKey?, if_neg hne]
    exact ih (fun kv' hkv' => h kv' (List.mem_cons_of_mem _ hkv'))

/-- The time of the first pending event bounds every nonempty bucket's
key from below. -/
theorem firstNonempty_time_le {d : TimeDict}
    (hs : d.Pairwise (fun x y => x.1 < y.1))
    (htm : ∀ kv ∈ d, ∀ e ∈ kv.2, e.sim_time = some kv.1) :
    ∀ kv ∈ d, kv.2 ≠ [] →
      ∃ e₀, TimeDict.firstNonempty d = some e₀ ∧ e₀.sim_time.getD 0 ≤ kv.1 := by
  induction d with
  | nil => intro kv h; simp at h
  | cons kv₀ rest ih =>
    rw [List.pairwise_cons] at hs
    obtain ⟨hhead, hrest⟩ := hs
    intro kv hkv hkvne
    obtain ⟨k₀, l₀⟩ := kv₀
    rcases List.mem_cons.mp hkv with rfl | hkv'
    · cases l₀ with
      | nil => exact absurd rfl hkvne
      | cons e₀ es =>
        refine ⟨e₀, rfl, ?_⟩
        have ht := htm (k₀, e₀ :: es) (by simp) e₀ (by simp)
        simp only [] at ht
        rw [ht]
        simp
    · cases l₀ with
      | nil =>
        exact ih hrest (fun kv' hkv'2 => htm kv' (List.mem_cons_of_mem _ hkv'2)) kv hkv' hkvne
      | cons e₀ es =>
        refine ⟨e₀, rfl, ?_⟩
        have ht := htm (k₀, e₀ :: es) (by simp) e₀ (by simp)
        simp only [] at ht
        rw [ht]
        have hlt := hhead kv hkv'
        simp only [] at hlt
        simp at hlt ⊢
        omega

/-! ## The weak queue invariant and C10 -/

/-- The state invariant of a band that the time-sentinel claims rest
on: trackers never go negative (and reach 1 before any bucket becomes
current), every bucket key is at least 1, and a bucket holds exactly
the events put at its key time. -/
structure TimeEventQueue.WF (b : TimeEventQueue) : Prop where
  min_nonneg : 0 ≤ b.min_event_time
  cur_min_pos : b.hasCurrent = true → 1 ≤ b.min_event_time
  keys_pos : ∀ kv ∈ b.event_queue, (1 : Int) ≤ kv.1
  times_match : ∀ kv ∈ b.event_queue, ∀ e ∈ kv.2, e.sim_time = some kv.1

/-- The invariant of the whole ordered queue. -/
def OrderedEventQueue.WF (q : OrderedEventQueue) : Prop :=
  q.q0.WF ∧ q.q1.WF ∧ q.q2.WF ∧ q.q3.WF

/-- `put` preserves the band invariant. -/
theorem TimeEventQueue.WF.put {b b' : TimeEventQueue} {e : Event} (hb : b.WF)
    (h : b.put e = .ok b') : b'.WF := by
  unfold TimeEventQueue.put at h
  split at h
  · cases h
  · rename_i t ht
    split at h
    · cases h
    · rename_i hlt
      rw [TimeEventQueue.min_add_time] at hlt
      injection h with h
      subst h
      refine ⟨hb.min_nonneg, hb.cur_min_pos, ?_, ?_⟩
      · intro kv hkv
        rcases mem_setKey_weak hkv with rfl | hkv'
        · have := hb.min_nonneg; simp; omega
        · exact hb.keys_pos kv hkv'
      · intro kv hkv e' he'
        rcases mem_setKey_weak hkv with rfl | hkv'
        · simp only [] at he'
          rcases List.mem_append.mp he' with hold | hnew
          · cases hgk : TimeDict.getKey? t b.event_queue with
            | none => rw [hgk] at hold; simp at hold
            | some l =>
              rw [hgk] at hold
              exact hb.times_match (t, l) (getKey?_mem hgk) e' hold
          · simp at hnew
            subst hnew
            exact ht
        · exact hb.times_match kv hkv' e' he'

/-- `refill` preserves the band invariant (stated with the pieces of the
invariant the caller can still guarantee after a deletion). -/
theorem TimeEventQueue.refill_WF {b b' : TimeEventQueue} {r : Option Event}
    (hmn : 0 ≤ b.min_event_time) (hcm : b.hasCurrent = true → 1 ≤ b.min_event_time)
    (hkp : ∀ kv ∈ b.event_queue, (1 : Int) ≤ kv.1)
    (htm : ∀ kv ∈ b.event_queue, ∀ e ∈ kv.2, e.sim_time = some kv.1)
    (h : b.refill = .ok (r, b')) : b'.WF := by
  unfold TimeEventQueue.refill at h
  split at h
  · injection h with h
    injection h with h1 h2
    subst h2
    exact ⟨hmn, hcm, hkp, htm⟩
  · rename_i k₁ hfk
    obtain ⟨l₀, hl₀⟩ := firstKey_mem hfk
    have hk₁ : (1 : Int) ≤ k₁ := hkp (k₁, l₀) hl₀
    unfold TimeEventQueue.popCurrent at h
    split at h
    · cases h
    · rename_i e rest hcl
      injection h with h
      injection h with h1 h2
      subst h2
      have hbl : TimeDict.getKey? k₁ b.event_queue = some (e :: rest) := by
        have hcl' : (TimeDict.getKey? k₁ b.event_queue).getD [] = e :: rest := hcl
        cases hgk : TimeDict.getKey? k₁ b.event_queue with
        | none => rw [hgk] at hcl'; simp at hcl'
        | some l => rw [hgk] at hcl'; simp at hcl'; rw [hcl']
      refine ⟨le_trans zero_le_one hk₁, fun _ => hk₁, ?_, ?_⟩
      · intro kv hkv
        rcases mem_setKey_weak hkv with rfl | hkv'
        · exact hk₁
        · exact hkp kv hkv'
      · intro kv hkv e' he'
        rcases mem_setKey_weak hkv with rfl | hkv'
        · exact htm (k₁, e :: rest) (getKey?_mem hbl) e' (List.mem_cons_of_mem _ he')
        · exact htm kv hkv' e' he'

/-- `next_event` preserves the band invariant. -/
theorem TimeEventQueue.WF.next {b b' : TimeEventQueue} {r : Option Event} (hb : b.WF)
    (h : b.next_event = .ok (r, b')) : b'.WF := by
  unfold TimeEventQueue.next_event at h
  by_cases h1 : ¬ b.hasCurrent = true ∨ b.currentList = []
  · rw [if_pos h1] at h
    by_cases h2 : b.hasCurrent = true ∧ b.currentList = []
    · rw [if_pos h2] at h
      by_cases h3 : TimeDict.containsKey b.min_event_time b.event_queue = true
      · rw [if_pos h3] at h
        refine TimeEventQueue.refill_WF (b := { b with
          event_queue := TimeDict.delKey b.min_event_time b.event_queue })
          hb.min_nonneg hb.cur_min_pos ?_ ?_ h
        · intro kv hkv
          exact hb.keys_pos kv ((delKey_sublist _ _).mem hkv)
        · intro kv hkv
          exact hb.times_match kv ((delKey_sublist _ _).mem hkv)
      · rw [if_neg h3] at h; cases h
    · rw [if_neg h2] at h
      exact TimeEventQueue.refill_WF hb.min_nonneg hb.cur_min_pos hb.keys_pos hb.times_match h
  · rw [if_neg h1] at h
    push_neg at h1
    obtain ⟨hcur, hcl⟩ := h1
    unfold TimeEventQueue.popCurrent at h
    split at h
    · cases h
    · rename_i e rest hcls
      injection h with h
      injection h with hA hB
      subst hB
      have hbl : TimeDict.getKey? b.min_event_time b.event_queue = some (e :: rest) := by
        have hcls' : (TimeDict.getKey? b.min_event_time b.event_queue).getD [] = e :: rest := hcls
        cases hgk : TimeDict.getKey? b.min_event_time b.event_queue with
        | none => rw [hgk] at hcls'; simp at hcls'
        | some l => rw [hgk] at hcls'; simp at hcls'; rw [hcls']
      refine ⟨hb.min_nonneg, hb.cur_min_pos, ?_, ?_⟩
      · intro kv hkv
        rcases mem_setKey_weak hkv with rfl | hkv'
        · exact hb.cur_min_pos hcur
        · exact hb.keys_pos kv hkv'
      · intro kv hkv e' he'
        rcases mem_setKey_weak hkv with rfl | hkv'
        · exact hb.times_match _ (getKey?_mem hbl) e' (List.mem_cons_of_mem _ he')
        · exact hb.times_match kv hkv' e' he'

/-- A successful ordered `put` is a successful banded put. -/
theorem OrderedEventQueue.put_ok_cases {q q' : OrderedEventQueue} {e : Event}
    (h : q.put e = .ok q') :
    ∃ i b', putIdxOf e = some i ∧ (q.band i).put e = .ok b' ∧ q' = q.setBand i b' := by
  unfold OrderedEventQueue.put at h
  split at h
  · rename_i hs
    split at h
    · rename_i i hm
      cases hput : (q.band i).put e with
      | error err =>
        rw [hput] at h
        simp only [Except.map] at h
        cases h
      | ok b' =>
        rw [hput] at h
        simp only [Except.map] at h
        injection h with h
        exact ⟨i, b', by simp [putIdxOf, hs, hm], hput, h.symm⟩
    · cases h
  · rename_i hs
    cases hput : q.q3.put e with
    | error err =>
      rw [hput] at h
      simp only [Except.map] at h
      cases h
    | ok b' =>
      rw [hput] at h
      simp only [Except.map] at h
      injection h with h
      exact ⟨3, b', by simp [putIdxOf, hs], hput, h.symm⟩

/-- A successful ordered `next_event` is a successful banded
`next_event` on one of the four bands (or the dead fallthrough). -/
theorem OrderedEventQueue.next_ok_cases {q q' : OrderedEventQueue} {r : Option Event}
    (h : q.next_event = .ok (r, q')) :
    (∃ i b', i < 4 ∧ (q.band i).next_event = .ok (r, b') ∧ q' = q.setBand i b') ∨
    (r = Option.none ∧ q' = q) := by
  unfold OrderedEventQueue.next_event OrderedEventQueue.nextLoop at h
  by_cases h0 : (q.band 0).next_event_time = q.next_event_time
  · rw [if_pos h0] at h
    cases hnx : (q.band 0).next_event with
    | error err => rw [hnx] at h; simp only [Except.map] at h; cases h
    | ok p =>
      rw [hnx] at h
      simp only [Except.map] at h
      injection h with h
      obtain ⟨e₀, b₀⟩ := p
      cases h
      exact Or.inl ⟨0, b₀, by omega, hnx, rfl⟩
  · rw [if_neg h0] at h
    unfold OrderedEventQueue.nextLoop at h
    by_cases h1 : (q.band 1).next_event_time = q.next_event_time
    · rw [if_pos h1] at h
      cases hnx : (q.band 1).next_event with
      | error err => rw [hnx] at h; simp only [Except.map] at h; cases h
      | ok p =>
        rw [hnx] at h
        simp only [Except.map] at h
        injection h with h
        obtain ⟨e₀, b₀⟩ := p
        cases h
        exact Or.inl ⟨1, b₀, by omega, hnx, rfl⟩
    · rw [if_neg h1] at h
      unfold OrderedEventQueue.nextLoop at h
      by_cases h2 : (q.band 2).next_event_time = q.next_event_time
      · rw [if_pos h2] at h
        cases hnx : (q.band 2).next_event with
        | error err => rw [hnx] at h; simp only [Except.map] at h; cases h
        | ok p =>
          rw [hnx] at h
          simp only [Except.map] at h
          injection h with h
          obtain ⟨e₀, b₀⟩ := p
          cases h
          exact Or.inl ⟨2, b₀, by omega, hnx, rfl⟩
      · rw [if_neg h2] at h
        unfold OrderedEventQueue.nextLoop at h
        by_cases h3 : (q.band 3).next_event_time = q.next_event_time
        · rw [if_pos h3] at h
          cases hnx : (q.band 3).next_event with
          | error err => rw [hnx] at h; simp only [Except.map] at h; cases h
          | ok p =>
            rw [hnx] at h
            simp only [Except.map] at h
            injection h with h
            obtain ⟨e₀, b₀⟩ := p
            cases h
            exact Or.inl ⟨3, b₀, by omega, hnx, rfl⟩
        · rw [if_neg h3] at h
          unfold OrderedEventQueue.nextLoop at h
          injection h with h
          injection h with hA hB
          exact Or.inr ⟨hA.symm, hB.symm⟩

/-- Writing band `i < 4` only changes that band's field. -/
theorem WF_setBand {q : OrderedEventQueue} {b' : TimeEventQueue} {i : Nat} (hi : i < 4)
    (hq : q.WF) (hb' : b'.WF) : (q.setBand i b').WF := by
  match i, hi with
  | 0, _ => exact ⟨hb', hq.2.1, hq.2.2.1, hq.2.2.2⟩
  | 1, _ => exact ⟨hq.1, hb', hq.2.2.1, hq.2.2.2⟩
  | 2, _ => exact ⟨hq.1, hq.2.1, hb', hq.2.2.2⟩
  | 3, _ => exact ⟨hq.1, hq.2.1, hq.2.2.1, hb'⟩

/-- Bands as fields: `band i` of a well-formed queue is well-formed. -/
theorem WF_band {q : OrderedEventQueue} (hq : q.WF) (i : Nat) : (q.band i).WF := by
  match i with
  | 0 => exact hq.1
  | 1 => exact hq.2.1
  | 2 => exact hq.2.2.1
  | n + 3 => exact hq.2.2.2

/-- The queue states reachable from a fresh `OrderedEventQueue` by
successful `put` and `next_event` calls (a raising call leaves no new
state). -/
inductive OrderedEventQueue.Reachable : OrderedEventQueue → Prop where
  | init : OrderedEventQueue.Reachable {}
  | put {q q' : OrderedEventQueue} {e : Event} : OrderedEventQueue.Reachable q →
      q.put e = .ok q' → OrderedEventQueue.Reachable q'
  | step {q q' : OrderedEventQueue} {r : Option Event} : OrderedEventQueue.Reachable q →
      q.next_event = .ok (r, q') → OrderedEventQueue.Reachable q'

/-- Every reachable queue state is well-formed. -/
theorem OrderedEventQueue.Reachable.wf {q : OrderedEventQueue} (h : q.Reachable) : q.WF := by
  induction h with
  | init =>
    refine ⟨?_, ?_, ?_, ?_⟩ <;>
      exact ⟨by norm_num, by simp, by simp, by simp⟩
  | put hr hput ih =>
    obtain ⟨i, b', hidx, hbput, rfl⟩ := OrderedEventQueue.put_ok_cases hput
    have hi4 : i < 4 := by
      unfold putIdxOf at hidx
      split at hidx
      · unfold event_name_to_idx_map at hidx
        split_ifs at hidx <;> (injection hidx with hidx; omega)
      · injection hidx with hidx
        omega
    exact WF_setBand hi4 ih (TimeEventQueue.WF.put (WF_band ih i) hbput)
  | step hr hnx ih =>
    rcases OrderedEventQueue.next_ok_cases hnx with ⟨i, b', hi4, hbnx, rfl⟩ | ⟨_, rfl⟩
    · exact WF_setBand hi4 ih (TimeEventQueue.WF.next (WF_band ih i) hbnx)
    · exact ih

/-- A well-formed band's `next_event_time` is 0 exactly when it has no
pending events, and otherwise is the (≥ 1) time of its first pending
event. -/
theorem TimeEventQueue.WF.net_spec {b : TimeEventQueue} (hb : b.WF) :
    (b.flatten = [] → b.next_event_time = 0) ∧
    (b.flatten ≠ [] → 1 ≤ b.next_event_time) := by
  constructor
  · intro hfl
    unfold TimeEventQueue.next_event_time
    rw [firstNonempty_eq_head]
    have : (b.event_queue.map Prod.snd).flatten = b.flatten := rfl
    rw [this, hfl]
    rfl
  · intro hfl
    unfold TimeEventQueue.next_event_time
    cases hfn : TimeDict.firstNonempty b.event_queue with
    | none =>
      exfalso
      apply hfl
      have := firstNonempty_eq_head b.event_queue
      rw [hfn] at this
      unfold TimeEventQueue.flatten
      exact List.head?_eq_none_iff.mp this.symm
    | some e =>
      obtain ⟨kv, hkv, he⟩ := firstNonempty_mem hfn
      have ht := hb.times_match kv hkv e he
      have hk := hb.keys_pos kv hkv
      show (1 : Int) ≤ e.sim_time.getD 0
      rw [ht]
      simpa using hk

/-- Every pending event of a well-formed band has a time of at least
1. -/
theorem TimeEventQueue.WF.flatten_times {b : TimeEventQueue} (hb : b.WF) :
    ∀ e ∈ b.flatten, ∃ t, e.sim_time = some t ∧ 1 ≤ t := by
  intro e he
  unfold TimeEventQueue.flatten at he
  rw [List.mem_flatten] at he
  obtain ⟨l, hl, hel⟩ := he
  rw [List.mem_map] at hl
  obtain ⟨kv, hkv, rfl⟩ := hl
  exact ⟨kv.1, hb.times_match kv hkv e hel, hb.keys_pos kv hkv⟩

/-! ## The strong queue invariant: delivery order (C3) -/

/-- The full invariant of a band during a put-then-drain run: on top of
`WF`, the keys are strictly sorted, every bucket is either the current
one or a nonempty future one, and the current bucket's key is present
while any bucket is (the dangling state only occurs on an empty
dict). -/
structure TimeEventQueue.SInv (b : TimeEventQueue) : Prop where
  wf : b.WF
  sorted : b.event_queue.Pairwise (fun x y => x.1 < y.1)
  buckets : ∀ kv ∈ b.event_queue,
    (kv.1 = b.min_event_time ∧ b.hasCurrent = true) ∨
    (b.min_event_time + 1 ≤ kv.1 ∧ kv.2 ≠ [])
  anchored : b.hasCurrent = true →
    (TimeDict.getKey? b.min_event_time b.event_queue).isSome = true ∨ b.event_queue = []

/-- `put` preserves the full invariant while the band has never been
drained (as during the put phase of a put-then-drain run). -/
theorem TimeEventQueue.SInv.put_noCur {b b' : TimeEventQueue} {e : Event}
    (hb : b.SInv) (hnc : b.hasCurrent = false) (h : b.put e = .ok b') :
    b'.SInv ∧ b'.hasCurrent = false := by
  unfold TimeEventQueue.put at h
  split at h
  · cases h
  · rename_i t ht
    split at h
    · cases h
    · rename_i hlt
      rw [TimeEventQueue.min_add_time] at hlt
      injection h with h
      subst h
      refine ⟨⟨⟨hb.wf.min_nonneg, hb.wf.cur_min_pos, ?_, ?_⟩, ?_, ?_, ?_⟩, hnc⟩
      · intro kv hkv
        rcases mem_setKey_weak hkv with rfl | hkv'
        · have := hb.wf.min_nonneg
          simp
          omega
        · exact hb.wf.keys_pos kv hkv'
      · intro kv hkv e' he'
        rcases mem_setKey_weak hkv with rfl | hkv'
        · simp only [] at he'
          rcases List.mem_append.mp he' with hold | hnew
          · cases hgk : TimeDict.getKey? t b.event_queue with
            | none => rw [hgk] at hold; simp at hold
            | some l =>
              rw [hgk] at hold
              exact hb.wf.times_match (t, l) (getKey?_mem hgk) e' hold
          · simp at hnew
            subst hnew
            exact ht
        · exact hb.wf.times_match kv hkv' e' he'
      · exact setKey_pairwise hb.sorted
      · intro kv hkv
        rcases mem_setKey_weak hkv with rfl | hkv'
        · right
          refine ⟨?_, by simp⟩
          show b.min_event_time + 1 ≤ t
          omega
        · exact hb.buckets kv hkv'
      · intro hcur
        simp [hnc] at hcur

/-- The invariant of the state just after an event was popped from the
head bucket `(k₁, e :: l₁')` of the scanned dict. -/
theorem SInv_of_popped {b' : TimeEventQueue} {k₁ : Int} {e : Event} {l₁' : List Event}
    {d₂ : TimeDict}
    (heq : b'.event_queue = (k₁, l₁') :: d₂) (hmin : b'.min_event_time = k₁)
    (hcur : b'.hasCurrent = true) (hk₁ : 1 ≤ k₁)
    (hsorted : ((k₁, e :: l₁') :: d₂).Pairwise (fun x y => x.1 < y.1))
    (htimes : ∀ kv ∈ (k₁, e :: l₁') :: d₂, ∀ e' ∈ kv.2, e'.sim_time = some kv.1)
    (hne : ∀ kv ∈ d₂, kv.2 ≠ []) : b'.SInv := by
  rw [List.pairwise_cons] at hsorted
  obtain ⟨hhead, hd₂⟩ := hsorted
  refine ⟨⟨?_, fun _ => hmin ▸ hk₁, ?_, ?_⟩, ?_, ?_, ?_⟩
  · rw [hmin]; omega
  · intro kv hkv
    rw [heq] at hkv
    rcases List.mem_cons.mp hkv with rfl | hkv'
    · exact hk₁
    · have := hhead kv hkv'
      simp only [] at this
      omega
  · intro kv hkv e' he'
    rw [heq] at hkv
    rcases List.mem_cons.mp hkv with rfl | hkv'
    · exact htimes (k₁, e :: l₁') (by simp) e' (List.mem_cons_of_mem _ he')
    · exact htimes kv (List.mem_cons_of_mem _ hkv') e' he'
  · rw [heq, List.pairwise_cons]
    exact ⟨fun y hy => hhead y hy, hd₂⟩
  · intro kv hkv
    rw [heq] at hkv
    rcases List.mem_cons.mp hkv with rfl | hkv'
    · exact Or.inl ⟨hmin.symm, hcur⟩
    · refine Or.inr ⟨?_, hne kv hkv'⟩
      have := hhead kv hkv'
      simp only [] at this
      rw [hmin]
      omega
  · intro _
    left
    rw [heq, hmin]
    simp [TimeDict.getKey?]

/-- One `next_event` call on a nonempty invariant band pops exactly the
head of its pending events: the result is `ok`, the invariant is kept,
the popped event's time is the band's `next_event_time` (at least 1),
the event comes off the front of its FIFO bucket, and every other
bucket is untouched. -/
theorem TimeEventQueue.SInv.next_cons {b : TimeEventQueue} {e : Event} {tl : List Event}
    (hb : b.SInv) (hfl : b.flatten = e :: tl) :
    ∃ b' t₀, b.next_event = .ok (some e, b') ∧ b'.SInv ∧ b'.flatten = tl ∧
      e.sim_time = some t₀ ∧ b.next_event_time = t₀ ∧ 1 ≤ t₀ ∧
      b.bucketOfT t₀ = e :: b'.bucketOfT t₀ ∧
      ∀ t, t ≠ t₀ → b'.bucketOfT t = b.bucketOfT t := by
  rcases hq : b.event_queue with _ | ⟨⟨k₀, l₀⟩, d₁⟩
  · exfalso
    have hemp : b.flatten = [] := by
      unfold TimeEventQueue.flatten
      rw [hq]
      rfl
    rw [hemp] at hfl
    simp at hfl
  · rcases l₀ with _ | ⟨e₀, l₀'⟩
    · -- the head bucket is the exhausted current one: delete it and refill
      rcases d₁ with _ | ⟨⟨k₁, l₁⟩, d₂⟩
      · exfalso
        have hemp : b.flatten = [] := by
          unfold TimeEventQueue.flatten
          rw [hq]
          rfl
        rw [hemp] at hfl
        simp at hfl
      · rcases l₁ with _ | ⟨e₁, l₁'⟩
        · exfalso
          have hbk0 := hb.buckets (k₀, []) (by rw [hq]; simp)
          have hbk1 := hb.buckets (k₁, []) (by rw [hq]; simp)
          have hsortb := hq ▸ hb.sorted
          rw [List.pairwise_cons] at hsortb
          have hlt : k₀ < k₁ := hsortb.1 (k₁, []) (by simp)
          rcases hbk0 with ⟨h0, _⟩ | ⟨_, h0ne⟩
          · rcases hbk1 with ⟨h1, _⟩ | ⟨_, h1ne⟩
            · have h0' : k₀ = b.min_event_time := h0
              have h1' : k₁ = b.min_event_time := h1
              omega
            · exact h1ne rfl
          · exact h0ne rfl
        · have hbk0 := hb.buckets (k₀, []) (by rw [hq]; simp)
          rcases hbk0 with ⟨hk₀min, hcur⟩ | ⟨_, h0ne⟩
          · have hk₀min' : k₀ = b.min_event_time := hk₀min
            have hsortb := hq ▸ hb.sorted
            rw [List.pairwise_cons] at hsortb
            obtain ⟨hh0, hs1⟩ := hsortb
            have hk₀k₁ : k₀ < k₁ := hh0 (k₁, e₁ :: l₁') (by simp)
            have hh1 : ∀ y ∈ d₂, k₁ < y.1 :=
              fun y hy => (List.pairwise_cons.mp hs1).1 y hy
            have hflb : b.flatten = e₁ :: (l₁' ++ (d₂.map Prod.snd).flatten) := by
              unfold TimeEventQueue.flatten
              rw [hq]
              simp
            rw [hflb] at hfl
            injection hfl with hfe hft
            subst hfe
            subst hft
            have hsim : e₁.sim_time = some k₁ :=
              hb.wf.times_match (k₁, e₁ :: l₁') (by rw [hq]; simp) e₁ (by simp)
            have hk₁pos : (1 : Int) ≤ k₁ := hb.wf.keys_pos (k₁, e₁ :: l₁') (by rw [hq]; simp)
            have heq' : TimeDict.setKey k₁ l₁' ((k₁, e₁ :: l₁') :: d₂) = (k₁, l₁') :: d₂ := by
              simp [TimeDict.setKey]
            have hcl0 : b.currentList = [] := by
              show (TimeDict.getKey? b.min_event_time b.event_queue).getD [] = []
              rw [hq, ← hk₀min']
              simp [TimeDict.getKey?]
            have hck : TimeDict.containsKey b.min_event_time b.event_queue = true := by
              show (TimeDict.getKey? b.min_event_time b.event_queue).isSome = true
              rw [hq, ← hk₀min']
              simp [TimeDict.getKey?]
            have hdel : TimeDict.delKey b.min_event_time b.event_queue =
                (k₁, e₁ :: l₁') :: d₂ := by
              rw [hq, ← hk₀min']
              simp [TimeDict.delKey]
            refine ⟨{ b with
                        event_queue := TimeDict.setKey k₁ l₁' ((k₁, e₁ :: l₁') :: d₂),
                        hasCurrent := true, min_event_time := k₁,
                        length := b.length - 1 }, k₁, ?_, ?_, ?_, hsim, ?_, hk₁pos, ?_, ?_⟩
            · unfold TimeEventQueue.next_event
              rw [if_pos (Or.inr hcl0), if_pos ⟨hcur, hcl0⟩, if_pos hck, hdel]
              show TimeEventQueue.popCurrent
                  { b with event_queue := (k₁, e₁ :: l₁') :: d₂,
                           min_event_time := k₁, hasCurrent := true } = _
              have hclm : TimeEventQueue.currentList
                  { b with event_queue := (k₁, e₁ :: l₁') :: d₂,
                           min_event_time := k₁, hasCurrent := true } = e₁ :: l₁' := by
                show (TimeDict.getKey? k₁ ((k₁, e₁ :: l₁') :: d₂)).getD [] = e₁ :: l₁'
                simp [TimeDict.getKey?]
              unfold TimeEventQueue.popCurrent
              rw [hclm]
            · refine SInv_of_popped heq' rfl rfl hk₁pos hs1 ?_ ?_
              · exact fun kv hkv e' he' =>
                  hb.wf.times_match kv (by rw [hq]; exact List.mem_cons_of_mem _ hkv) e' he'
              · intro kv hkv
                rcases hb.buckets kv
                    (by rw [hq]
                        exact List.mem_cons_of_mem _ (List.mem_cons_of_mem _ hkv)) with
                  ⟨h1, _⟩ | ⟨_, h2⟩
                · exfalso
                  have hlt : k₁ < kv.1 := hh1 kv hkv
                  have h1' : kv.1 = b.min_event_time := h1
                  rw [← hk₀min'] at h1'
                  omega
                · exact h2
            · show ((TimeDict.setKey k₁ l₁' ((k₁, e₁ :: l₁') :: d₂)).map Prod.snd).flatten = _
              rw [heq']
              simp
            · have hfe : TimeDict.firstNonempty b.event_queue = some e₁ := by
                rw [hq]
                rfl
              unfold TimeEventQueue.next_event_time
              rw [hfe]
              show e₁.sim_time.getD 0 = k₁
              rw [hsim]
              rfl
            · show (TimeDict.getKey? k₁ b.event_queue).getD [] =
                  e₁ :: (TimeDict.getKey? k₁
                    (TimeDict.setKey k₁ l₁' ((k₁, e₁ :: l₁') :: d₂))).getD []
              rw [heq', hq]
              have hne10 : ¬ (k₁ = k₀) := by omega
              simp [TimeDict.getKey?, hne10]
            · intro t htne
              show (TimeDict.getKey? t
                    (TimeDict.setKey k₁ l₁' ((k₁, e₁ :: l₁') :: d₂))).getD [] =
                  (TimeDict.getKey? t b.event_queue).getD []
              rw [heq', hq]
              by_cases htk₀ : t = k₀
              · rw [htk₀]
                have hne01 : ¬ (k₀ = k₁) := by omega
                have hd₂none : TimeDict.getKey? k₀ d₂ = Option.none := by
                  apply getKey?_eq_none
                  intro kv hkv
                  have h' : k₁ < kv.1 := hh1 kv hkv
                  omega
                simp [TimeDict.getKey?, hne01, hd₂none]
              · simp [TimeDict.getKey?, htne, htk₀]
          · exact absurd rfl h0ne
    · -- the head bucket is nonempty: pop it (becoming current first if needed)
      have hflb : b.flatten = e₀ :: (l₀' ++ (d₁.map Prod.snd).flatten) := by
        unfold TimeEventQueue.flatten
        rw [hq]
        simp
      rw [hflb] at hfl
      injection hfl with hfe hft
      subst hfe
      subst hft
      have hsim : e₀.sim_time = some k₀ :=
        hb.wf.times_match (k₀, e₀ :: l₀') (by rw [hq]; simp) e₀ (by simp)
      have hk₀pos : (1 : Int) ≤ k₀ := hb.wf.keys_pos (k₀, e₀ :: l₀') (by rw [hq]; simp)
      have hfe : TimeDict.firstNonempty b.event_queue = some e₀ := by
        rw [hq]
        rfl
      cases hcur : b.hasCurrent
      · -- no current bucket yet: refill to the first key, then pop
        have hall : ∀ kv ∈ b.event_queue, b.min_event_time + 1 ≤ kv.1 ∧ kv.2 ≠ [] := by
          intro kv hkv
          rcases hb.buckets kv hkv with ⟨_, h⟩ | h
          · rw [hcur] at h
            cases h
          · exact h
        have heq' : TimeDict.setKey k₀ l₀' b.event_queue = (k₀, l₀') :: d₁ := by
          rw [hq]
          simp [TimeDict.setKey]
        refine ⟨{ b with
                    event_queue := TimeDict.setKey k₀ l₀' b.event_queue,
                    hasCurrent := true, min_event_time := k₀,
                    length := b.length - 1 }, k₀, ?_, ?_, ?_, hsim, ?_, hk₀pos, ?_, ?_⟩
        · unfold TimeEventQueue.next_event
          rw [if_pos (Or.inl (by rw [hcur]; simp)),
            if_neg (show ¬(b.hasCurrent = true ∧ b.currentList = []) from by rw [hcur]; simp)]
          unfold TimeEventQueue.refill
          have hfk : TimeDict.firstKey b.event_queue = some k₀ := by
            rw [hq]
            rfl
          rw [hfk]
          show TimeEventQueue.popCurrent
              { b with min_event_time := k₀, hasCurrent := true } = _
          have hclm : TimeEventQueue.currentList
              { b with min_event_time := k₀, hasCurrent := true } = e₀ :: l₀' := by
            show (TimeDict.getKey? k₀ b.event_queue).getD [] = e₀ :: l₀'
            rw [hq]
            simp [TimeDict.getKey?]
          unfold TimeEventQueue.popCurrent
          rw [hclm]
        · refine SInv_of_popped heq' rfl rfl hk₀pos (hq ▸ hb.sorted) ?_ ?_
          · exact fun kv hkv e' he' =>
              hb.wf.times_match kv (by rw [hq]; exact hkv) e' he'
          · exact fun kv hkv =>
              (hall kv (by rw [hq]; exact List.mem_cons_of_mem _ hkv)).2
        · show ((TimeDict.setKey k₀ l₀' b.event_queue).map Prod.snd).flatten = _
          rw [heq']
          simp
        · unfold TimeEventQueue.next_event_time
          rw [hfe]
          show e₀.sim_time.getD 0 = k₀
          rw [hsim]
          rfl
        · show (TimeDict.getKey? k₀ b.event_queue).getD [] =
              e₀ :: (TimeDict.getKey? k₀ (TimeDict.setKey k₀ l₀' b.event_queue)).getD []
          rw [heq', hq]
          simp [TimeDict.getKey?]
        · intro t htne
          show (TimeDict.getKey? t (TimeDict.setKey k₀ l₀' b.event_queue)).getD [] =
              (TimeDict.getKey? t b.event_queue).getD []
          rw [heq', hq]
          simp [TimeDict.getKey?, htne]
      · -- the current bucket is the nonempty head bucket: pop it directly
        have hanch := hb.anchored hcur
        have hsome : (TimeDict.getKey? b.min_event_time b.event_queue).isSome = true := by
          rcases hanch with h | h
          · exact h
          · rw [hq] at h
            simp at h
        have hk₀min : b.min_event_time = k₀ := by
          by_cases hmk : b.min_event_time = k₀
          · exact hmk
          · exfalso
            rw [hq] at hsome
            simp only [TimeDict.getKey?, if_neg hmk] at hsome
            rw [Option.isSome_iff_exists] at hsome
            obtain ⟨l, hl⟩ := hsome
            have hmem := getKey?_mem hl
            have hsortb := hq ▸ hb.sorted
            rw [List.pairwise_cons] at hsortb
            have hklt : k₀ < b.min_event_time := hsortb.1 (b.min_event_time, l) hmem
            rcases hb.buckets (k₀, e₀ :: l₀') (by rw [hq]; simp) with ⟨h1, _⟩ | ⟨h2, _⟩
            · exact hmk (Eq.symm h1)
            · have h2' : b.min_event_time + 1 ≤ k₀ := h2
              omega
        have hcl : b.currentList = e₀ :: l₀' := by
          unfold TimeEventQueue.currentList
          rw [hq, hk₀min]
          simp [TimeDict.getKey?]
        have heq' : TimeDict.setKey b.min_event_time l₀' b.event_queue = (k₀, l₀') :: d₁ := by
          rw [hq, hk₀min]
          simp [TimeDict.setKey]
        refine ⟨{ b with
                    event_queue := TimeDict.setKey b.min_event_time l₀' b.event_queue,
                    length := b.length - 1 }, k₀, ?_, ?_, ?_, hsim, ?_, hk₀pos, ?_, ?_⟩
        · unfold TimeEventQueue.next_event
          rw [if_neg (show ¬(¬ b.hasCurrent = true ∨ b.currentList = []) from by
            rw [hcur, hcl]
            simp)]
          unfold TimeEventQueue.popCurrent
          rw [hcl]
        · refine SInv_of_popped heq' hk₀min hcur hk₀pos (hq ▸ hb.sorted) ?_ ?_
          · exact fun kv hkv e' he' =>
              hb.wf.times_match kv (by rw [hq]; exact hkv) e' he'
          · intro kv hkv
            rcases hb.buckets kv (by rw [hq]; exact List.mem_cons_of_mem _ hkv) with
              ⟨h1, _⟩ | ⟨_, h2⟩
            · exfalso
              have hsortb := hq ▸ hb.sorted
              rw [List.pairwise_cons] at hsortb
              have hlt : k₀ < kv.1 := hsortb.1 kv hkv
              have h1' : kv.1 = b.min_event_time := h1
              rw [hk₀min] at h1'
              omega
            · exact h2
        · show ((TimeDict.setKey b.min_event_time l₀' b.event_queue).map Prod.snd).flatten = _
          rw [heq']
          simp
        · unfold TimeEventQueue.next_event_time
          rw [hfe]
          show e₀.sim_time.getD 0 = k₀
          rw [hsim]
          rfl
        · show (TimeDict.getKey? k₀ b.event_queue).getD [] =
              e₀ :: (TimeDict.getKey? k₀
                (TimeDict.setKey b.min_event_time l₀' b.event_queue)).getD []
          rw [heq', hq]
          simp [TimeDict.getKey?]
        · intro t htne
          show (TimeDict.getKey? t
                (TimeDict.setKey b.min_event_time l₀' b.event_queue)).getD [] =
              (TimeDict.getKey? t b.event_queue).getD []
          rw [heq', hq]
          simp [TimeDict.getKey?, htne]

/-- The delivery precedence the corrected C3 asserts: earlier virtual
time first, and band priority (created, changed, destroyed, other)
within one time. -/
def eventLE (a b : Event) : Prop :=
  ∃ ta tb ia ib, a.sim_time = some ta ∧ b.sim_time = some tb ∧
    putIdxOf a = some ia ∧ putIdxOf b = some ib ∧
    (ta < tb ∨ (ta = tb ∧ ia ≤ ib))

/-- Reading back the band just written. -/
theorem band_setBand (q : OrderedEventQueue) (i : Nat) (b : TimeEventQueue) :
    (q.setBand i b).band i = b := by
  match i with
  | 0 => rfl
  | 1 => rfl
  | 2 => rfl
  | n + 3 => rfl

/-- Writing one band leaves the other bands unchanged. -/
theorem band_setBand_ne (q : OrderedEventQueue) (i j : Nat) (b : TimeEventQueue)
    (hi : i < 4) (hj : j < 4) (hij : i ≠ j) : (q.setBand i b).band j = q.band j := by
  interval_cases i <;> interval_cases j <;> first
    | exact absurd rfl hij
    | rfl

/-- Each of the four bands appears in `_event_queues`. -/
theorem band_mem_event_queues (q : OrderedEventQueue) (i : Nat) (hi : i < 4) :
    q.band i ∈ q.event_queues := by
  interval_cases i <;> simp [OrderedEventQueue.event_queues, OrderedEventQueue.band]

/-- An event is pending in the ordered queue iff it is pending in one of
the four bands. -/
theorem mem_pendingEvents {q : OrderedEventQueue} {x : Event} :
    x ∈ q.pendingEvents ↔ ∃ i, i < 4 ∧ x ∈ (q.band i).flatten := by
  show x ∈ (([q.q0, q.q1, q.q2, q.q3].map TimeEventQueue.flatten).flatten) ↔ _
  simp only [List.map_cons, List.map_nil, List.flatten_cons, List.flatten_nil,
    List.append_nil, List.mem_append]
  constructor
  · rintro (h | h | h | h)
    · exact ⟨0, by omega, h⟩
    · exact ⟨1, by omega, h⟩
    · exact ⟨2, by omega, h⟩
    · exact ⟨3, by omega, h⟩
  · rintro ⟨i, hi, h⟩
    interval_cases i
    · exact Or.inl h
    · exact Or.inr (Or.inl h)
    · exact Or.inr (Or.inr (Or.inl h))
    · exact Or.inr (Or.inr (Or.inr h))

/-- `pendingCount` counts the pending events. -/
theorem pendingCount_eq_length (q : OrderedEventQueue) :
    q.pendingCount = q.pendingEvents.length := by
  unfold OrderedEventQueue.pendingCount OrderedEventQueue.pendingEvents
    OrderedEventQueue.event_queues
  simp [List.length_flatten, List.map_map, Function.comp]

/-- How `pendingCount` changes when one band is replaced. -/
theorem pendingCount_setBand (q : OrderedEventQueue) (j : Nat) (hj : j < 4)
    (b : TimeEventQueue) :
    (q.setBand j b).pendingCount + (q.band j).flatten.length =
      q.pendingCount + b.flatten.length := by
  interval_cases j <;>
    simp [OrderedEventQueue.pendingCount, OrderedEventQueue.event_queues,
      OrderedEventQueue.setBand, OrderedEventQueue.band] <;>
    omega

/-- A stored bucket's events are pending. -/
theorem bucketOfT_sub_flatten (b : TimeEventQueue) (t : Int) :
    ∀ x ∈ b.bucketOfT t, x ∈ b.flatten := by
  intro x hx
  unfold TimeEventQueue.bucketOfT at hx
  cases hgk : TimeDict.getKey? t b.event_queue with
  | none => rw [hgk] at hx; simp at hx
  | some l =>
    rw [hgk] at hx
    unfold TimeEventQueue.flatten
    rw [List.mem_flatten]
    exact ⟨l, List.mem_map.mpr ⟨(t, l), getKey?_mem hgk, rfl⟩, hx⟩

/-- In an invariant band, the band's `next_event_time` bounds every
pending event's time from below. -/
theorem TimeEventQueue.SInv.net_le_mem {b : TimeEventQueue} (hb : b.SInv) :
    ∀ x ∈ b.flatten, ∃ s, x.sim_time = some s ∧ b.next_event_time ≤ s := by
  intro x hx
  unfold TimeEventQueue.flatten at hx
  rw [List.mem_flatten] at hx
  obtain ⟨l, hl, hxl⟩ := hx
  rw [List.mem_map] at hl
  obtain ⟨kv, hkv, rfl⟩ := hl
  refine ⟨kv.1, hb.wf.times_match kv hkv x hxl, ?_⟩
  obtain ⟨e₀, hfe, hle⟩ := firstNonempty_time_le hb.sorted hb.wf.times_match kv hkv
    (by intro h; rw [h] at hxl; simp at hxl)
  unfold TimeEventQueue.next_event_time
  rw [hfe]
  exact hle

/-- The scan of `OrderedEventQueue.next_event` drains the first band in
the scanned order whose band minimum equals the target time. -/
theorem nextLoop_find (q : OrderedEventQueue) (t : Int) :
    ∀ is : List Nat, is.Pairwise (· < ·) →
      (∃ j ∈ is, (q.band j).next_event_time = t) →
      ∃ j ∈ is, (q.band j).next_event_time = t ∧
        (∀ i ∈ is, (q.band i).next_event_time = t → j ≤ i) ∧
        OrderedEventQueue.nextLoop q t is =
          (TimeEventQueue.next_event (q.band j)).map (fun r => (r.1, q.setBand j r.2)) := by
  intro is
  induction is with
  | nil => intro _ h; simp at h
  | cons i rest ih =>
    intro hpw hex
    rw [List.pairwise_cons] at hpw
    obtain ⟨hhead, hrest⟩ := hpw
    by_cases hi : (q.band i).next_event_time = t
    · refine ⟨i, by simp, hi, ?_, ?_⟩
      · intro i' hi' _
        rcases List.mem_cons.mp hi' with rfl | h'
        · exact le_refl _
        · exact le_of_lt (hhead i' h')
      · unfold OrderedEventQueue.nextLoop
        rw [if_pos hi]
    · have hex' : ∃ j ∈ rest, (q.band j).next_event_time = t := by
        obtain ⟨j, hj, hjt⟩ := hex
        rcases List.mem_cons.mp hj with rfl | h'
        · exact absurd hjt hi
        · exact ⟨j, h', hjt⟩
      obtain ⟨j, hj, hjt, hleast, heq⟩ := ih hrest hex'
      refine ⟨j, List.mem_cons_of_mem _ hj, hjt, ?_, ?_⟩
      · intro i' hi' hit
        rcases List.mem_cons.mp hi' with rfl | h'
        · exact absurd hit hi
        · exact hleast i' h' hit
      · unfold OrderedEventQueue.nextLoop
        rw [if_neg hi]
        exact heq

/-- One `next_event` call on a nonempty ordered queue whose bands all
hold the strong invariant returns the pending event that is minimal for
time-then-band priority, popped off the front of its FIFO bucket with
every other bucket untouched and the invariant preserved. -/
theorem OrderedEventQueue.drain_step {q : OrderedEventQueue}
    (hq : ∀ i, i < 4 → (q.band i).SInv)
    (hroute : ∀ i, i < 4 → ∀ x ∈ (q.band i).flatten, putIdxOf x = some i)
    (hne : q.pendingEvents ≠ []) :
    ∃ e j t₀ b', j < 4 ∧ putIdxOf e = some j ∧ e.sim_time = some t₀ ∧
      q.next_event = .ok (some e, q.setBand j b') ∧
      (∀ i, i < 4 → ((q.setBand j b').band i).SInv) ∧
      (∀ i, i < 4 → ∀ x ∈ ((q.setBand j b').band i).flatten, putIdxOf x = some i) ∧
      (q.setBand j b').pendingCount + 1 = q.pendingCount ∧
      (∀ x ∈ (q.setBand j b').pendingEvents, x ∈ q.pendingEvents) ∧
      (∀ x ∈ (q.setBand j b').pendingEvents, eventLE e x) ∧
      q.bucketAt j t₀ = e :: (q.setBand j b').bucketAt j t₀ ∧
      (∀ i t, i < 4 → ¬(i = j ∧ t = t₀) →
        (q.setBand j b').bucketAt i t = q.bucketAt i t) := by
  have hex_band : ∃ jn, jn < 4 ∧ (q.band jn).flatten ≠ [] := by
    by_contra hc
    push_neg at hc
    apply hne
    have hsplit : q.pendingEvents =
        (q.band 0).flatten ++ ((q.band 1).flatten ++ ((q.band 2).flatten ++
          ((q.band 3).flatten ++ []))) := rfl
    rw [hsplit, hc 0 (by omega), hc 1 (by omega), hc 2 (by omega), hc 3 (by omega)]
    rfl
  obtain ⟨jn, hjn4, hjnne⟩ := hex_band
  have hnet1 : 1 ≤ (q.band jn).next_event_time := ((hq jn hjn4).wf.net_spec).2 hjnne
  have hmemL : (q.band jn).next_event_time ∈
      (q.event_queues.map TimeEventQueue.next_event_time).filter (fun t => t != 0) := by
    rw [List.mem_filter]
    refine ⟨List.mem_map.mpr ⟨q.band jn, band_mem_event_queues q jn hjn4, rfl⟩, ?_⟩
    simp only [bne_iff_ne, ne_eq, decide_eq_true_eq]
    omega
  cases hLm : ((q.event_queues.map TimeEventQueue.next_event_time).filter
      (fun t => t != 0)).min? with
  | none =>
    exfalso
    rw [List.min?_eq_none_iff] at hLm
    rw [hLm] at hmemL
    exact absurd hmemL (List.not_mem_nil _)
  | some m =>
    have ht₀ : q.next_event_time = m := by
      show (match ((q.event_queues.map TimeEventQueue.next_event_time).filter
          (fun t => t != 0)).min? with
        | some v => v
        | Option.none => 0) = m
      rw [hLm]
    have hmmem := List.min?_mem (fun a b : Int => min_choice a b) hLm
    rw [List.mem_filter] at hmmem
    obtain ⟨hmmem, hmne0⟩ := hmmem
    have hmne0' : m ≠ 0 := by simpa using hmne0
    have hlbL := (List.le_min?_iff (fun a b c : Int => le_min_iff) hLm).mp (le_refl m)
    have hlb : ∀ i, i < 4 → (q.band i).next_event_time ≠ 0 →
        m ≤ (q.band i).next_event_time := by
      intro i hi hne0
      apply hlbL
      rw [List.mem_filter]
      refine ⟨List.mem_map.mpr ⟨q.band i, band_mem_event_queues q i hi, rfl⟩, ?_⟩
      simpa using hne0
    rw [List.mem_map] at hmmem
    obtain ⟨bb, hbb, hbbeq⟩ := hmmem
    have hexj : ∃ j ∈ [0, 1, 2, 3], (q.band j).next_event_time = q.next_event_time := by
      rw [ht₀]
      simp only [OrderedEventQueue.event_queues, List.mem_cons, List.not_mem_nil,
        or_false] at hbb
      rcases hbb with rfl | rfl | rfl | rfl
      · exact ⟨0, by simp, hbbeq⟩
      · exact ⟨1, by simp, hbbeq⟩
      · exact ⟨2, by simp, hbbeq⟩
      · exact ⟨3, by simp, hbbeq⟩
    obtain ⟨j, hjmem, hjt, hleast, heq⟩ := nextLoop_find q q.next_event_time [0, 1, 2, 3]
      (by decide) hexj
    have hj4 : j < 4 := by
      simp only [List.mem_cons, List.not_mem_nil, or_false] at hjmem
      rcases hjmem with rfl | rfl | rfl | rfl <;> omega
    have hleast' : ∀ i, i < 4 → (q.band i).next_event_time = q.next_event_time → j ≤ i := by
      intro i hi hit
      exact hleast i (by interval_cases i <;> simp) hit
    have hnetj : (q.band j).next_event_time = m := by rw [← ht₀]; exact hjt
    have hflne : (q.band j).flatten ≠ [] := by
      intro h0
      have hz := ((hq j hj4).wf.net_spec).1 h0
      exact hmne0' (by rw [← hnetj]; exact hz)
    obtain ⟨e, tl, hflj⟩ : ∃ e tl, (q.band j).flatten = e :: tl := by
      cases hfl : (q.band j).flatten with
      | nil => exact absurd hfl hflne
      | cons a l => exact ⟨a, l, rfl⟩
    obtain ⟨b', t₀', hbnx, hSb', hflb', hsime, hnetj', ht₀pos, hpopb, hotherb⟩ :=
      (hq j hj4).next_cons hflj
    have ht₀m : t₀' = m := by rw [← hnetj']; exact hnetj
    rw [ht₀m] at hsime hnetj' ht₀pos hpopb hotherb
    have hpe : putIdxOf e = some j :=
      hroute j hj4 e (by rw [hflj]; exact List.mem_cons_self _ _)
    refine ⟨e, j, m, b', hj4, hpe, hsime, ?_, ?_, ?_, ?_, ?_, ?_, ?_, ?_⟩
    · show q.next_event = .ok (some e, q.setBand j b')
      unfold OrderedEventQueue.next_event
      rw [heq, hbnx]
      rfl
    · intro i hi
      by_cases hij : i = j
      · rw [hij, band_setBand]
        exact hSb'
      · rw [band_setBand_ne q j i b' hj4 hi (fun h => hij h.symm)]
        exact hq i hi
    · intro i hi x hx
      by_cases hij : i = j
      · rw [hij, band_setBand, hflb'] at hx
        rw [hij]
        exact hroute j hj4 x (by rw [hflj]; exact List.mem_cons_of_mem _ hx)
      · rw [band_setBand_ne q j i b' hj4 hi (fun h => hij h.symm)] at hx
        exact hroute i hi x hx
    · have hps := pendingCount_setBand q j hj4 b'
      rw [hflj, hflb'] at hps
      simp only [List.length_cons] at hps
      omega
    · intro x hx
      rw [mem_pendingEvents] at hx
      obtain ⟨i, hi, hxi⟩ := hx
      rw [mem_pendingEvents]
      by_cases hij : i = j
      · rw [hij, band_setBand, hflb'] at hxi
        exact ⟨j, hj4, by rw [hflj]; exact List.mem_cons_of_mem _ hxi⟩
      · rw [band_setBand_ne q j i b' hj4 hi (fun h => hij h.symm)] at hxi
        exact ⟨i, hi, hxi⟩
    · intro x hx
      have hx' : ∃ i, i < 4 ∧ x ∈ (q.band i).flatten := by
        rw [mem_pendingEvents] at hx
        obtain ⟨i, hi, hxi⟩ := hx
        by_cases hij : i = j
        · refine ⟨j, hj4, ?_⟩
          rw [hij, band_setBand, hflb'] at hxi
          rw [hflj]
          exact List.mem_cons_of_mem _ hxi
        · refine ⟨i, hi, ?_⟩
          rwa [band_setBand_ne q j i b' hj4 hi (fun h => hij h.symm)] at hxi
      obtain ⟨i, hi, hxf⟩ := hx'
      obtain ⟨s, hxs, hles⟩ := (hq i hi).net_le_mem x hxf
      have hxroute := hroute i hi x hxf
      have hneti0 : (q.band i).next_event_time ≠ 0 := by
        have h1 : 1 ≤ (q.band i).next_event_time :=
          ((hq i hi).wf.net_spec).2 (by intro h0; rw [h0] at hxf; simp at hxf)
        omega
      have hmle : m ≤ (q.band i).next_event_time := hlb i hi hneti0
      refine ⟨m, s, j, i, hsime, hxs, hpe, hxroute, ?_⟩
      have hms : m ≤ s := le_trans hmle hles
      rcases lt_or_eq_of_le hms with h | h
      · exact Or.inl h
      · refine Or.inr ⟨h, ?_⟩
        have hieq : (q.band i).next_event_time = q.next_event_time := by
          rw [ht₀]
          omega
        exact hleast' i hi hieq
    · have hb1 : (q.setBand j b').band j = b' := band_setBand q j b'
      show (q.band j).bucketOfT m = e :: ((q.setBand j b').band j).bucketOfT m
      rw [hb1]
      exact hpopb
    · intro i t hi hnotjt
      by_cases hij : i = j
      · have htne : t ≠ m := fun h => hnotjt ⟨hij, h⟩
        rw [hij]
        show ((q.setBand j b').band j).bucketOfT t = (q.band j).bucketOfT t
        rw [band_setBand]
        exact hotherb t htne
      · show ((q.setBand j b').band i).bucketOfT t = (q.band i).bucketOfT t
        rw [band_setBand_ne q j i b' hj4 hi (fun h => hij h.symm)]

/-- Draining an invariant queue to exhaustion yields the pending events
sorted by time-then-band priority, with each (band, time) FIFO bucket
drained in stored order. -/
theorem drainFuel_ordered : ∀ (n : Nat) (q : OrderedEventQueue),
    (∀ i, i < 4 → (q.band i).SInv) →
    (∀ i, i < 4 → ∀ x ∈ (q.band i).flatten, putIdxOf x = some i) →
    n = q.pendingCount →
    (OrderedEventQueue.drainFuel n q).Pairwise eventLE ∧
    (∀ j t, j < 4 → (OrderedEventQueue.drainFuel n q).filter
        (fun x => decide (putIdxOf x = some j) && decide (x.sim_time = some t)) =
      q.bucketAt j t) ∧
    (∀ x ∈ OrderedEventQueue.drainFuel n q, x ∈ q.pendingEvents) := by
  intro n
  induction n with
  | zero =>
    intro q hq hroute hcnt
    have hpe : q.pendingEvents = [] := by
      have hl := pendingCount_eq_length q
      rw [← hcnt] at hl
      exact List.length_eq_zero.mp hl.symm
    refine ⟨by simp [OrderedEventQueue.drainFuel], ?_,
      by simp [OrderedEventQueue.drainFuel]⟩
    intro j t hj
    have hflat : (q.band j).flatten = [] := by
      cases hf : (q.band j).flatten with
      | nil => rfl
      | cons a l =>
        exfalso
        have ha : a ∈ q.pendingEvents := mem_pendingEvents.mpr ⟨j, hj, by rw [hf]; simp⟩
        rw [hpe] at ha
        simp at ha
    have hbempty : q.bucketAt j t = [] := by
      cases hb : q.bucketAt j t with
      | nil => rfl
      | cons a l =>
        exfalso
        have ha : a ∈ (q.band j).bucketOfT t := by
          show a ∈ q.bucketAt j t
          rw [hb]
          simp
        have haf := bucketOfT_sub_flatten (q.band j) t a ha
        rw [hflat] at haf
        simp at haf
    rw [hbempty]
    rfl
  | succ n ih =>
    intro q hq hroute hcnt
    have hne : q.pendingEvents ≠ [] := by
      intro h
      have hl := pendingCount_eq_length q
      rw [h] at hl
      simp at hl
      omega
    obtain ⟨e, j, t₀, b', hj4, hpe, hsime, hnx, hSq', hroute', hcnt', hsub, hle, hpop,
      hother⟩ := OrderedEventQueue.drain_step hq hroute hne
    have hdf : OrderedEventQueue.drainFuel (n + 1) q =
        e :: OrderedEventQueue.drainFuel n (q.setBand j b') := by
      simp only [OrderedEventQueue.drainFuel]
      rw [hnx]
    have hcnt2 : n = (q.setBand j b').pendingCount := by omega
    obtain ⟨ihp, ihf, ihm⟩ := ih (q.setBand j b') hSq' hroute' hcnt2
    refine ⟨?_, ?_, ?_⟩
    · rw [hdf, List.pairwise_cons]
      exact ⟨fun x hx => hle x (ihm x hx), ihp⟩
    · intro j' t hj'
      rw [hdf]
      by_cases hjt : j' = j ∧ t = t₀
      · obtain ⟨rfl, rfl⟩ := hjt
        have hpt : (decide (putIdxOf e = some j') && decide (e.sim_time = some t)) = true := by
          rw [hpe, hsime]
          simp
        rw [List.filter_cons, if_pos hpt, ihf j' t hj']
        exact hpop.symm
      · have hptf : (decide (putIdxOf e = some j') && decide (e.sim_time = some t)) =
            false := by
          by_cases h1 : putIdxOf e = some j'
          · by_cases h2 : e.sim_time = some t
            · exfalso
              apply hjt
              constructor
              · rw [hpe] at h1
                exact (Option.some.inj h1).symm
              · rw [hsime] at h2
                exact (Option.some.inj h2).symm
            · simp [h2]
          · simp [h1]
        rw [List.filter_cons, if_neg (by rw [hptf]; simp), ihf j' t hj']
        exact hother j' t hj' hjt
    · intro x hx
      rw [hdf] at hx
      have he_mem : e ∈ q.pendingEvents := by
        apply mem_pendingEvents.mpr
        refine ⟨j, hj4, ?_⟩
        apply bucketOfT_sub_flatten (q.band j) t₀
        show e ∈ (q.band j).bucketOfT t₀
        have hbb : (q.band j).bucketOfT t₀ = q.bucketAt j t₀ := rfl
        rw [hbb, hpop]
        exact List.mem_cons_self _ _
      rcases List.mem_cons.mp hx with rfl | hx'
      · exact he_mem
      · exact hsub x (ihm x hx')

/-- Events only route to band indices 0 through 3. -/
theorem putIdxOf_lt_4 {e : Event} {i : Nat} (h : putIdxOf e = some i) : i < 4 := by
  unfold putIdxOf at h
  split at h
  · unfold event_name_to_idx_map at h
    split_ifs at h <;> (injection h with h; omega)
  · injection h with h
    omega

/-- `TimeEventQueue.put` on an event with a concrete time, unfolded. -/
theorem TimeEventQueue.put_some (b : TimeEventQueue) (e : Event) (t : Int)
    (ht : e.sim_time = some t) :
    b.put e =
      if t < b.min_event_time + 1 then .error QueueError.timeInPast
      else .ok { b with
        event_queue :=
          TimeDict.setKey t (((TimeDict.getKey? t b.event_queue).getD []) ++ [e]) b.event_queue,
        length := b.length + 1 } := by
  simp [TimeEventQueue.put, ht, TimeEventQueue.min_add_time]

/-- A successful band `put` appends the event to its FIFO bucket and
touches nothing else. -/
theorem TimeEventQueue.put_bucket {b b' : TimeEventQueue} {e : Event} {t : Int}
    (ht : e.sim_time = some t) (h : b.put e = .ok b') :
    b'.bucketOfT t = b.bucketOfT t ++ [e] ∧
    (∀ s, s ≠ t → b'.bucketOfT s = b.bucketOfT s) ∧
    (∀ x ∈ b'.flatten, x ∈ b.flatten ∨ x = e) := by
  rw [TimeEventQueue.put_some b e t ht] at h
  split at h
  · cases h
  · injection h with h
    subst h
    refine ⟨?_, ?_, ?_⟩
    · show (TimeDict.getKey? t (TimeDict.setKey t
          (((TimeDict.getKey? t b.event_queue).getD []) ++ [e]) b.event_queue)).getD [] = _
      rw [getKey?_setKey_self]
      rfl
    · intro s hs
      show (TimeDict.getKey? s (TimeDict.setKey t
          (((TimeDict.getKey? t b.event_queue).getD []) ++ [e]) b.event_queue)).getD [] = _
      rw [getKey?_setKey_other t s _ b.event_queue hs]
      rfl
    · intro x hx
      unfold TimeEventQueue.flatten at hx
      rw [List.mem_flatten] at hx
      obtain ⟨l, hl, hxl⟩ := hx
      rw [List.mem_map] at hl
      obtain ⟨kv, hkv, rfl⟩ := hl
      rcases mem_setKey_weak hkv with rfl | hkv'
      · rcases List.mem_append.mp hxl with hold | hnew
        · exact Or.inl (bucketOfT_sub_flatten b t x hold)
        · right
          simpa using hnew
      · left
        unfold TimeEventQueue.flatten
        rw [List.mem_flatten]
        exact ⟨kv.2, List.mem_map.mpr ⟨kv, hkv', rfl⟩, hxl⟩

/-- The fresh band holds the strong invariant. -/
theorem TimeEventQueue.SInv_empty : TimeEventQueue.SInv {} := by
  refine ⟨⟨by decide, ?_, ?_, ?_⟩, List.Pairwise.nil, ?_, ?_⟩
  · intro h
    simp at h
  · intro kv hkv
    cases hkv
  · intro kv hkv
    cases hkv
  · intro kv hkv
    cases hkv
  · intro h
    simp at h

/-- Running a list of `put`s on an undrained invariant queue keeps the
invariant and leaves each (band, time) FIFO bucket extended by exactly
the accepted events routed there, in acceptance order. -/
theorem putAll_spec : ∀ (evs : List Event) (q : OrderedEventQueue),
    (∀ i, i < 4 → (q.band i).SInv ∧ (q.band i).hasCurrent = false) →
    (∀ i, i < 4 → ∀ x ∈ (q.band i).flatten, putIdxOf x = some i) →
    (∀ i, i < 4 → ((OrderedEventQueue.putAll evs q).1.band i).SInv ∧
      ((OrderedEventQueue.putAll evs q).1.band i).hasCurrent = false) ∧
    (∀ i, i < 4 → ∀ x ∈ ((OrderedEventQueue.putAll evs q).1.band i).flatten,
      putIdxOf x = some i) ∧
    (∀ j t, j < 4 →
      (OrderedEventQueue.putAll evs q).1.bucketAt j t =
        q.bucketAt j t ++ (OrderedEventQueue.putAll evs q).2.filter
          (fun x => decide (putIdxOf x = some j) && decide (x.sim_time = some t))) := by
  intro evs
  induction evs with
  | nil =>
    intro q hS hroute
    refine ⟨hS, hroute, ?_⟩
    intro j t hj
    simp [OrderedEventQueue.putAll]
  | cons ev rest ih =>
    intro q hS hroute
    cases hput : q.put ev with
    | error err =>
      have hpa : OrderedEventQueue.putAll (ev :: rest) q =
          OrderedEventQueue.putAll rest q := by
        simp only [OrderedEventQueue.putAll]
        rw [hput]
      rw [hpa]
      exact ih q hS hroute
    | ok q' =>
      have hpa1 : (OrderedEventQueue.putAll (ev :: rest) q).1 =
          (OrderedEventQueue.putAll rest q').1 := by
        simp only [OrderedEventQueue.putAll]
        rw [hput]
      have hpa2 : (OrderedEventQueue.putAll (ev :: rest) q).2 =
          ev :: (OrderedEventQueue.putAll rest q').2 := by
        simp only [OrderedEventQueue.putAll]
        rw [hput]
      obtain ⟨ipt, bp, hidx, hbput, rfl⟩ := OrderedEventQueue.put_ok_cases hput
      have hi4 : ipt < 4 := putIdxOf_lt_4 hidx
      have hevt : ∃ t, ev.sim_time = some t := by
        unfold TimeEventQueue.put at hbput
        split at hbput
        · cases hbput
        · rename_i t' ht'
          exact ⟨t', ht'⟩
      obtain ⟨tev, htev⟩ := hevt
      obtain ⟨hSb, hCb⟩ :=
        TimeEventQueue.SInv.put_noCur (hS ipt hi4).1 (hS ipt hi4).2 hbput
      obtain ⟨hbpop, hbother, hbsub⟩ := TimeEventQueue.put_bucket htev hbput
      have hS' : ∀ i, i < 4 → ((q.setBand ipt bp).band i).SInv ∧
          ((q.setBand ipt bp).band i).hasCurrent = false := by
        intro i hi
        by_cases hij : i = ipt
        · rw [hij, band_setBand]
          exact ⟨hSb, hCb⟩
        · rw [band_setBand_ne q ipt i bp hi4 hi (fun h => hij h.symm)]
          exact hS i hi
      have hroute' : ∀ i, i < 4 →
          ∀ x ∈ ((q.setBand ipt bp).band i).flatten, putIdxOf x = some i := by
        intro i hi x hx
        by_cases hij : i = ipt
        · rw [hij, band_setBand] at hx
          rcases hbsub x hx with hxold | rfl
          · rw [hij]
            exact hroute ipt hi4 x hxold
          · rw [hij]
            exact hidx
        · rw [band_setBand_ne q ipt i bp hi4 hi (fun h => hij h.symm)] at hx
          exact hroute i hi x hx
      obtain ⟨ih1, ih2, ih3⟩ := ih (q.setBand ipt bp) hS' hroute'
      refine ⟨?_, ?_, ?_⟩
      · intro i hi
        rw [hpa1]
        exact ih1 i hi
      · intro i hi x hx
        rw [hpa1] at hx
        exact ih2 i hi x hx
      · intro j t hj
        rw [hpa1, hpa2, ih3 j t hj, List.filter_cons]
        by_cases hjt : j = ipt ∧ t = tev
        · obtain ⟨rfl, rfl⟩ := hjt
          have hpt : (decide (putIdxOf ev = some j) && decide (ev.sim_time = some t)) =
              true := by
            rw [hidx, htev]
            simp
          rw [if_pos hpt]
          have hba : (q.setBand j bp).bucketAt j t = q.bucketAt j t ++ [ev] := by
            show ((q.setBand j bp).band j).bucketOfT t = (q.band j).bucketOfT t ++ [ev]
            rw [band_setBand]
            exact hbpop
          rw [hba]
          simp
        · have hptf : (decide (putIdxOf ev = some j) && decide (ev.sim_time = some t)) =
              false := by
            by_cases h1 : putIdxOf ev = some j
            · by_cases h2 : ev.sim_time = some t
              · exfalso
                apply hjt
                constructor
                · rw [hidx] at h1
                  exact (Option.some.inj h1).symm
                · rw [htev] at h2
                  exact (Option.some.inj h2).symm
              · simp [h2]
            · simp [h1]
          rw [if_neg (by rw [hptf]; simp)]
          have hba : (q.setBand ipt bp).bucketAt j t = q.bucketAt j t := by
            by_cases hij : j = ipt
            · have htne : t ≠ tev := fun h => hjt ⟨hij, h⟩
              rw [hij]
              show ((q.setBand ipt bp).band ipt).bucketOfT t = (q.band ipt).bucketOfT t
              rw [band_setBand]
              exact hbother t htne
            · show ((q.setBand ipt bp).band j).bucketOfT t = (q.band j).bucketOfT t
              rw [band_setBand_ne q ipt j bp hi4 hj (fun h => hij h.symm)]
          rw [hba]

/-- The fresh ordered queue's bands hold the strong invariant with no
current bucket. -/
theorem SInv_empty_queue : ∀ i, i < 4 →
    (({} : OrderedEventQueue).band i).SInv ∧
    (({} : OrderedEventQueue).band i).hasCurrent = false := by
  intro i hi
  interval_cases i <;> exact ⟨TimeEventQueue.SInv_empty, rfl⟩

/-- The fresh ordered queue has nothing pending anywhere. -/
theorem route_empty_queue : ∀ i, i < 4 →
    ∀ x ∈ (({} : OrderedEventQueue).band i).flatten, putIdxOf x = some i := by
  intro i hi x hx
  have hfl : (({} : OrderedEventQueue).band i).flatten = [] := by
    interval_cases i <;> rfl
  rw [hfl] at hx
  cases hx

/-- Every bucket of the fresh ordered queue is empty. -/
theorem bucketAt_empty_queue : ∀ (j : Nat) (t : Int),
    ({} : OrderedEventQueue).bucketAt j t = [] := by
  intro j t
  match j with
  | 0 => rfl
  | 1 => rfl
  | 2 => rfl
  | n + 3 => rfl

/-- The event returned by one `next_event` call, `none` when the queue
reported empty or raised. -/
def takeEvent (q : OrderedEventQueue) : Option Event :=
  match q.next_event with
  | .ok (e, _) => e
  | .error _ => Option.none

/-- The queue state after one `next_event` call (unchanged when the call
raised). -/
def takeState (q : OrderedEventQueue) : OrderedEventQueue :=
  match q.next_event with
  | .ok (_, q') => q'
  | .error _ => q

/-- The queue state after one `put` (unchanged when the put raised). -/
def putState (q : OrderedEventQueue) (e : Event) : OrderedEventQueue :=
  match q.put e with
  | .ok q' => q'
  | .error _ => q

/-- A named (non-standard) event at time 2. -/
def namedX2 : Event := { event_name := "x", sim_time := some 2 }

/-- An entity-created event at time 1. -/
def createdA1 : Event :=
  EntityCreatedEvent [("scarab_name", PropValue.str "a"), ("scarab_id", PropValue.str "A")]
    (some 1)

/-- The queue after accepting the named event at time 2. -/
def c2_q1 : OrderedEventQueue := (OrderedEventQueue.putAll [namedX2] {}).1

/-! ## Claim theorems -/

/-- C2 counterexample: the claim says a put fails with time-in-the-past
whenever the event's time is ≤ the time of the most recently returned
event, regardless of priority bands.  Here the queue has just returned
the named event at time 2, yet a put of an entity-created event at time
1 succeeds, because each band checks only its own last-returned time. -/
theorem C2_counterexample :
    (OrderedEventQueue.putAll [namedX2] {}).2 = [namedX2] ∧
    takeEvent c2_q1 = some namedX2 ∧
    namedX2.sim_time = some 2 ∧ createdA1.sim_time = some 1 ∧
    ((takeState c2_q1).put createdA1).isOk = true := by
  decide

/-- The value written by `setKey` is one of the dict's buckets. -/
theorem setKey_mem (k : Int) (v : List Event) (d : TimeDict) :
    (k, v) ∈ TimeDict.setKey k v d := by
  induction d with
  | nil => simp [TimeDict.setKey]
  | cons kv rest ih =>
    by_cases h1 : k < kv.1
    · simp [TimeDict.setKey, h1]
    · by_cases h2 : k = kv.1 <;> simp [TimeDict.setKey, h1, h2, ih]

/-- `OrderedEventQueue.put` acts on the band named by `putIdxOf`. -/
theorem OrderedEventQueue.put_eq_band (q : OrderedEventQueue) (e : Event) (i : Nat)
    (hi : putIdxOf e = some i) :
    q.put e = (TimeEventQueue.put (q.band i) e).map (q.setBand i) := by
  unfold putIdxOf at hi
  by_cases h : e.event_name ∈ standard_event_names
  · rw [if_pos h] at hi
    simp [OrderedEventQueue.put, h, hi]
  · rw [if_neg h] at hi
    obtain rfl : (3 : Nat) = i := Option.some.inj hi
    simp [OrderedEventQueue.put, h]
    rfl

/-- C2 (amended): `put` raises time-in-the-past exactly when the event's
time is ≤ the last-returned time tracked by the event's own priority
band (each band starts at 0); otherwise the put succeeds and the event
is appended to its band's bucket for that time, i.e. it becomes
pending. -/
theorem C2_put_time_in_past_per_band (q : OrderedEventQueue) (e : Event) (t : Int) (i : Nat)
    (ht : e.sim_time = some t) (hi : putIdxOf e = some i) :
    (q.put e = .error QueueError.timeInPast ↔ t ≤ (q.band i).min_event_time) ∧
    ((q.band i).min_event_time < t →
      ∃ q', q.put e = .ok q' ∧
        q'.bucketAt i t = q.bucketAt i t ++ [e] ∧
        e ∈ (q'.band i).flatten) := by
  rw [OrderedEventQueue.put_eq_band q e i hi, TimeEventQueue.put_some (q.band i) e t ht]
  constructor
  · by_cases hle : t ≤ (q.band i).min_event_time
    · rw [if_pos (by omega)]
      simp [hle, Except.map]
    · rw [if_neg (by omega)]
      simp [hle, Except.map]
  · intro hgt
    rw [if_neg (by omega)]
    refine ⟨_, rfl, ?_, ?_⟩
    · simp [OrderedEventQueue.bucketAt, band_setBand, getKey?_setKey_self]
    · rw [band_setBand]
      simp only [TimeEventQueue.flatten]
      have hmem := setKey_mem t (((TimeDict.getKey? t (q.band i).event_queue).getD []) ++ [e])
        (q.band i).event_queue
      rw [List.mem_flatten]
      exact ⟨_, List.mem_map.mpr ⟨_, hmem, rfl⟩, by simp⟩

/-- C2 witness: the amended statement applied to the empty queue and the
named event at time 2 (band 3, whose last-returned tracker is 0 < 2). -/
theorem C2_witness :
    ∃ q', OrderedEventQueue.put {} namedX2 = .ok q' ∧ namedX2 ∈ (q'.band 3).flatten := by
  obtain ⟨q', h1, _, h3⟩ :=
    (C2_put_time_in_past_per_band {} namedX2 2 3 rfl rfl).2 (by decide)
  exact ⟨q', h1, h3⟩

/-- C3 counterexample: the claim promises nondecreasing delivery times
for every sequence of accepted puts interleaved with takes, and that no
returned event has time ≤ the previously returned one.  This accepted
interleaving returns the named event at time 2 first and the
entity-created event at time 1 second. -/
theorem C3_counterexample :
    takeEvent c2_q1 = some namedX2 ∧ namedX2.sim_time = some 2 ∧
    ((takeState c2_q1).put createdA1).isOk = true ∧
    takeEvent (putState (takeState c2_q1) createdA1) = some createdA1 ∧
    createdA1.sim_time = some 1 := by
  decide

/-- C3 (amended): the claimed ordering holds for put-then-drain runs
and with the last clause weakened to strictly increasing times only
across distinct times.  Starting from a fresh queue, after any sequence
of puts (dropping rejected ones), draining everything returns the
accepted events sorted by virtual time with band priority (created,
changed, destroyed, then named/other) breaking ties within one time,
and each (band, time) FIFO bucket is returned in insertion order.  The
interleaved form of the claim is false (see the counterexample): an
accepted later put may carry an earlier time than an already-returned
event, and equal-time events in different bands make the "never ≤ the
last returned time" clause fail. -/
theorem C3_queue_order_put_then_drain (evs : List Event) :
    ((OrderedEventQueue.putAll evs {}).1.drainAll).Pairwise eventLE ∧
    ∀ j t, j < 4 →
      ((OrderedEventQueue.putAll evs {}).1.drainAll).filter
          (fun x => decide (putIdxOf x = some j) && decide (x.sim_time = some t)) =
        ((OrderedEventQueue.putAll evs {}).2).filter
          (fun x => decide (putIdxOf x = some j) && decide (x.sim_time = some t)) := by
  obtain ⟨hS, hroute, hbucket⟩ := putAll_spec evs {} SInv_empty_queue route_empty_queue
  obtain ⟨hp, hf, hm⟩ := drainFuel_ordered
    ((OrderedEventQueue.putAll evs {}).1.pendingCount)
    (OrderedEventQueue.putAll evs {}).1
    (fun i hi => (hS i hi).1) hroute rfl
  constructor
  · exact hp
  · intro j t hj
    have h1 : ((OrderedEventQueue.putAll evs ({} : OrderedEventQueue)).1.drainAll).filter
        (fun x => decide (putIdxOf x = some j) && decide (x.sim_time = some t)) =
        (OrderedEventQueue.putAll evs ({} : OrderedEventQueue)).1.bucketAt j t := hf j t hj
    rw [h1, hbucket j t hj, bucketAt_empty_queue j t]
    rfl

/-- C3 witness: the amended theorem applied to the concrete run that
puts a named event at time 2 and a created event at time 1, reading off
the created band's bucket at time 1. -/
theorem C3_witness :
    ((OrderedEventQueue.putAll [namedX2, createdA1] {}).1.drainAll).Pairwise eventLE ∧
    ((OrderedEventQueue.putAll [namedX2, createdA1] {}).1.drainAll).filter
        (fun x => decide (putIdxOf x = some 0) && decide (x.sim_time = some 1)) =
      ((OrderedEventQueue.putAll [namedX2, createdA1] {}).2).filter
        (fun x => decide (putIdxOf x = some 0) && decide (x.sim_time = some 1)) :=
  ⟨(C3_queue_order_put_then_drain [namedX2, createdA1]).1,
    (C3_queue_order_put_then_drain [namedX2, createdA1]).2 0 1 (by decide)⟩

/-- C10: in every reachable queue state, every pending event has time at
least 1 (so a put at time 0 can never succeed, each band's minimum add
time being at least 1), and `next_event_time` returns 0 exactly when
nothing is pending: 0 is a safe "none" sentinel. -/
theorem C10_time_sentinel (q : OrderedEventQueue) (hq : q.Reachable) :
    (∀ e ∈ q.pendingEvents, ∃ t, e.sim_time = some t ∧ 1 ≤ t) ∧
    (q.next_event_time = 0 ↔ q.pendingEvents = []) ∧
    (∀ e, e.sim_time = some 0 → ∀ q'', q.put e ≠ .ok q'') := by
  have hwf := hq.wf
  have hpend : q.pendingEvents =
      q.q0.flatten ++ (q.q1.flatten ++ (q.q2.flatten ++ q.q3.flatten)) := by
    simp [OrderedEventQueue.pendingEvents, OrderedEventQueue.event_queues]
  have hnetpos : ∀ b : TimeEventQueue, b.WF → b.next_event_time ≠ 0 →
      1 ≤ b.next_event_time ∧ b.flatten ≠ [] := by
    intro b hb hnz
    by_cases hfl : b.flatten = []
    · exact absurd (hb.net_spec.1 hfl) hnz
    · exact ⟨hb.net_spec.2 hfl, hfl⟩
  refine ⟨?_, ⟨?_, ?_⟩, ?_⟩
  · intro e he
    rw [hpend] at he
    rcases List.mem_append.mp he with h | he
    · exact hwf.1.flatten_times e h
    rcases List.mem_append.mp he with h | he
    · exact hwf.2.1.flatten_times e h
    rcases List.mem_append.mp he with h | h
    · exact hwf.2.2.1.flatten_times e h
    · exact hwf.2.2.2.flatten_times e h
  · intro hz
    by_contra hne
    have hband : q.q0.flatten ≠ [] ∨ q.q1.flatten ≠ [] ∨ q.q2.flatten ≠ [] ∨
        q.q3.flatten ≠ [] := by
      by_contra hall
      push_neg at hall
      exact hne (by rw [hpend, hall.1, hall.2.1, hall.2.2.1, hall.2.2.2]; rfl)
    have hsome : ∃ b : TimeEventQueue, b.WF ∧ b.next_event_time ≠ 0 ∧
        b.next_event_time ∈ (q.event_queues.map TimeEventQueue.next_event_time) := by
      rcases hband with h | h | h | h
      · exact ⟨q.q0, hwf.1, by have := hwf.1.net_spec.2 h; omega,
          by simp [OrderedEventQueue.event_queues]⟩
      · exact ⟨q.q1, hwf.2.1, by have := hwf.2.1.net_spec.2 h; omega,
          by simp [OrderedEventQueue.event_queues]⟩
      · exact ⟨q.q2, hwf.2.2.1, by have := hwf.2.2.1.net_spec.2 h; omega,
          by simp [OrderedEventQueue.event_queues]⟩
      · exact ⟨q.q3, hwf.2.2.2, by have := hwf.2.2.2.net_spec.2 h; omega,
          by simp [OrderedEventQueue.event_queues]⟩
    obtain ⟨b, hbwf, hbnz, hbmem⟩ := hsome
    have hmemf : b.next_event_time ∈
        (q.event_queues.map TimeEventQueue.next_event_time).filter (fun t => t != 0) := by
      rw [List.mem_filter]
      exact ⟨hbmem, by simpa using hbnz⟩
    cases hm : ((q.event_queues.map TimeEventQueue.next_event_time).filter
        (fun t => t != 0)).min? with
    | none =>
      rw [List.min?_eq_none_iff] at hm
      rw [hm] at hmemf
      exact absurd hmemf (List.not_mem_nil _)
    | some m =>
      have hqm : q.next_event_time = m := by
        show (match ((q.event_queues.map TimeEventQueue.next_event_time).filter
            (fun t => t != 0)).min? with
          | some v => v
          | Option.none => 0) = m
        rw [hm]
      rw [hqm] at hz
      have hmmem := List.min?_mem (fun a b : Int => min_choice a b) hm
      rw [List.mem_filter] at hmmem
      obtain ⟨hmmem, hmne⟩ := hmmem
      rw [List.mem_map] at hmmem
      obtain ⟨b', hb', hb'eq⟩ := hmmem
      have hb'wf : b'.WF := by
        simp only [OrderedEventQueue.event_queues, List.mem_cons, List.not_mem_nil,
          or_false] at hb'
        rcases hb' with rfl | rfl | rfl | rfl
        · exact hwf.1
        · exact hwf.2.1
        · exact hwf.2.2.1
        · exact hwf.2.2.2
      have : 1 ≤ m := by
        obtain ⟨h1, _⟩ := hnetpos b' hb'wf (by rw [hb'eq]; simpa using hmne)
        omega
      omega
  · intro hempty
    rw [hpend] at hempty
    simp only [List.append_eq_nil] at hempty
    obtain ⟨h0, h1, h2, h3⟩ := hempty
    unfold OrderedEventQueue.next_event_time
    rw [show q.event_queues.map TimeEventQueue.next_event_time =
        [q.q0.next_event_time, q.q1.next_event_time, q.q2.next_event_time,
         q.q3.next_event_time] from rfl,
      hwf.1.net_spec.1 h0, hwf.2.1.net_spec.1 h1, hwf.2.2.1.net_spec.1 h2,
      hwf.2.2.2.net_spec.1 h3]
    rfl
  · intro e h0t q'' hput
    obtain ⟨i, b', _, hbput, _⟩ := OrderedEventQueue.put_ok_cases hput
    have hwfb := WF_band hwf i
    unfold TimeEventQueue.put at hbput
    split at hbput
    · cases hbput
    · rename_i t ht
      rw [h0t] at ht
      injection ht with ht
      split at hbput
      · cases hbput
      · rename_i hlt
        rw [TimeEventQueue.min_add_time] at hlt
        have := hwfb.min_nonneg
        omega

/-- C10 witness: the theorem applied to the reachable state holding one
event at time 2. -/
theorem C10_witness :
    (∀ e ∈ c2_q1.pendingEvents, ∃ t, e.sim_time = some t ∧ 1 ≤ t) ∧
    (c2_q1.next_event_time = 0 ↔ c2_q1.pendingEvents = []) ∧
    c2_q1.next_event_time = 2 := by
  have h := C10_time_sentinel c2_q1
    (OrderedEventQueue.Reachable.put OrderedEventQueue.Reachable.init
      (show OrderedEventQueue.put {} namedX2 = .ok c2_q1 from rfl))
  exact ⟨h.1, h.2.1, by decide⟩

/-- C1: `send_event` with a TIME_UPDATED (or SIM_*) event stamps it with
the current clock and bypasses the queue, but the claimed immediate
routing never happens: the synchronous method calls the `async`
`_route_event` without awaiting it, so the simulation state is returned
unchanged and no handler is invoked.  Evaluated here on a fresh
simulation and a time-updated event. -/
theorem C1_immediate_event_dropped :
    Simulation.send_event Simulation.init
        { event_name := ScarabEventType.TIME_UPDATED, sim_time := some 5,
          previous_time := some 4 } =
      .ok (Simulation.init,
        SendOutcome.immediate
          { event_name := ScarabEventType.TIME_UPDATED, sim_time := some 0,
            previous_time := some 4 }) := by
  rfl

/-- The registered test entity used to exercise self-notification. -/
def testEntity1 : EntityObj :=
  { scarab_name := "test1", scarab_id := "entity1-id",
    fields := [("prop1", PropValue.str "test"), ("prop2", PropValue.int 42)] }

/-- A router where `testEntity1` subscribes to created events for its
own kind name. -/
def selfRouter : EventRouter :=
  { entity_created_handlers := [("test1", [⟨testEntity1, fun _ => .ok ()⟩])] }

/-- C4: the claim (and the repository's own router test) says a handler
whose owning entity is the subject of an entity-lifecycle event is
skipped.  Routing an ENTITY_CREATED event about `testEntity1` invokes
`testEntity1`'s own handler: no self-notification filter exists in
`_handle_entity_created` or `_handle_entity_updated`. -/
theorem C4_self_notification_not_filtered :
    (selfRouter._handle_entity_created
        (EntityCreatedEvent (scarab_properties testEntity1) (some 1))).invoked =
      ["entity1-id"] := by
  rfl

/-- The handler loop calls every handler in the list, in order. -/
theorem handleHandlers_invoked (event : Event) (hs : List EntityAndHandler) :
    (handleHandlers event hs).invoked = hs.map (fun h => h.entity.scarab_id) := by
  induction hs with
  | nil => rfl
  | cons h rest ih =>
    cases hh : h.handler event <;> simp [handleHandlers, hh, ih]

/-- The handler loop logs one error triple per raising handler, in
order. -/
theorem handleHandlers_errors (event : Event) (hs : List EntityAndHandler) :
    (handleHandlers event hs).errors = hs.filterMap
      (fun h =>
        match h.handler event with
        | .ok _ => Option.none
        | .error ex => some (event, scarab_properties h.entity, ex)) := by
  induction hs with
  | nil => rfl
  | cons h rest ih =>
    cases hh : h.handler event <;> simp [handleHandlers, hh, ih, List.filterMap_cons]

/-- C5: every handler subscribed to a named event is invoked, in table
order, even when earlier handlers raise; each raising handler
contributes one logged `(event, entity properties, exception)` triple;
and the route returns normally (its result type is total), so handler
exceptions never propagate. -/
theorem C5_handler_fault_isolation (router : EventRouter) (event : Event) :
    (router._handle_named_event event).invoked =
      ((List.lookup event.event_name router.named_event_handlers).getD []).map
        (fun h => h.entity.scarab_id) ∧
    (router._handle_named_event event).errors =
      ((List.lookup event.event_name router.named_event_handlers).getD []).filterMap
        (fun h =>
          match h.handler event with
          | .ok _ => Option.none
          | .error ex => some (event, scarab_properties h.entity, ex)) := by
  exact ⟨handleHandlers_invoked event _, handleHandlers_errors event _⟩

/-- C7: the claim (and the guard's own error message, "Attempting to run
negative or zero steps") says `run` with `n = 0` is rejected with no
stepping.  Because `0` is falsy in Python, `if nbr_steps and
nbr_steps <= 0` does not fire: the call proceeds, the state becomes
running with `run_to` still `-1` (unbounded), and the first loop
iteration steps, advancing the clock. -/
theorem C7_run_zero_steps_not_rejected :
    Simulation._run_steps_entry Simulation.init (some 0) false =
      RunStepsEntry.proceeds
        { Simulation.init with current_state := SimulationState.running } ∧
    Simulation.loopWouldStep
        { Simulation.init with current_state := SimulationState.running } = true := by
  exact ⟨rfl, rfl⟩

/-- C8: with a declared schema, the conformance check fails with a
schema-violation error naming the missing fields when any declared
field is absent from the instance dict, and succeeds when all declared
fields are present.  (The source runs this check when the entity
instance is constructed, before it can be admitted.) -/
theorem C8_conformance_check (schema : List String) (instanceDict : Props) :
    ((∃ p ∈ schema, List.lookup p instanceDict = Option.none) →
      _scarab_does_conform (some schema) instanceDict =
        .error (schema.filter (fun p => (List.lookup p instanceDict).isNone))) ∧
    ((∀ p ∈ schema, (List.lookup p instanceDict).isSome) →
      _scarab_does_conform (some schema) instanceDict = .ok true) := by
  constructor
  · rintro ⟨p, hp, hnone⟩
    have hne : schema.filter (fun p => (List.lookup p instanceDict).isNone) ≠ [] := by
      intro hnil
      have hmem : p ∈ schema.filter (fun p => (List.lookup p instanceDict).isNone) :=
        List.mem_filter.mpr ⟨hp, by simp [hnone]⟩
      rw [hnil] at hmem
      exact absurd hmem (List.not_mem_nil p)
    simp [_scarab_does_conform, hne]
  · intro hall
    have hnil : schema.filter (fun p => (List.lookup p instanceDict).isNone) = [] := by
      rw [List.filter_eq_nil_iff]
      intro p hp
      obtain ⟨v, hv⟩ := Option.isSome_iff_exists.mp (hall p hp)
      simp [hv]
    simp [_scarab_does_conform, hnil]

/-- C8 witness: a schema with a missing field "b" is rejected naming
"b"; the same instance passes a schema it satisfies. -/
theorem C8_witness :
    _scarab_does_conform (some ["a", "b"]) [("a", PropValue.int 1)] = .error ["b"] ∧
    _scarab_does_conform (some ["a"]) [("a", PropValue.int 1)] = .ok true := by
  refine ⟨?_, (C8_conformance_check ["a"] [("a", PropValue.int 1)]).2 (by decide)⟩
  have h := (C8_conformance_check ["a", "b"] [("a", PropValue.int 1)]).1
    ⟨"b", by decide, by decide⟩
  exact h.trans (congrArg Except.error (by decide))

/-- The entity-created event with a sender id, as produced when an
entity sends it through `send_event` (which stamps `sender_id`). -/
def c9_event : Event :=
  { EntityCreatedEvent [("scarab_name", PropValue.str "test1"),
      ("scarab_id", PropValue.str "e1")] (some 3) with
    sender_id := some "e1" }

/-- C9 counterexample: the claim says parsing the wire form back yields
the same `sender_id`.  An entity-created event with `sender_id` set
round-trips to `sender_id = None`, because the factory rebuilds
standard kinds through constructors that never set sender or target. -/
theorem C9_counterexample :
    EventFactory.create_event_from_json c9_event.to_json =
      .ok (some { c9_event with sender_id := Option.none }) ∧
    c9_event.sender_id = some "e1" := by
  exact ⟨rfl, rfl⟩

/-- C9 (amended): for every constructor-shaped event, serializing to the
wire form and parsing back succeeds and preserves `event_name`,
`sim_time` and the kind-specific members (`entity`,
`changed_properties`, `previous_time`); `sender_id` and `target_id` are
preserved only for events outside the reserved kinds the factory
special-cases (they are reset to `None` for those). -/
theorem C9_roundtrip_amended (e : Event) (hwf : WellFormedEvent e) :
    ∃ e', EventFactory.create_event_from_json e.to_json = .ok (some e') ∧
      e'.event_name = e.event_name ∧ e'.sim_time = e.sim_time ∧ e'.entity = e.entity ∧
      e'.changed_properties = e.changed_properties ∧ e'.previous_time = e.previous_time ∧
      (e.event_name ∉ handled_wire_names →
        e'.sender_id = e.sender_id ∧ e'.target_id = e.target_id) := by
  obtain ⟨hc, hch, hd, htu, hsim, hother⟩ := hwf
  by_cases h1 : e.event_name = ScarabEventType.SIMULATION_START
  · obtain ⟨he, hcp, hpt⟩ := hsim (by simp [h1])
    exact ⟨SimulationStartEvent e.sim_time,
      by simp [EventFactory.create_event_from_json, Event.to_json, h1],
      by simp [SimulationStartEvent, h1], rfl,
      by simp [SimulationStartEvent, he], by simp [SimulationStartEvent, hcp],
      by simp [SimulationStartEvent, hpt],
      fun hnot => absurd (by simp [handled_wire_names, h1]) hnot⟩
  by_cases h2 : e.event_name = ScarabEventType.SIMULATION_PAUSE
  · obtain ⟨he, hcp, hpt⟩ := hsim (by simp [h2])
    exact ⟨SimulationPauseEvent e.sim_time,
      by simp +decide [EventFactory.create_event_from_json, Event.to_json, h2],
      by simp [SimulationPauseEvent, h2], rfl,
      by simp [SimulationPauseEvent, he], by simp [SimulationPauseEvent, hcp],
      by simp [SimulationPauseEvent, hpt],
      fun hnot => absurd (by simp [handled_wire_names, h2]) hnot⟩
  by_cases h3 : e.event_name = ScarabEventType.SIMULATION_RESUME
  · obtain ⟨he, hcp, hpt⟩ := hsim (by simp [h3])
    exact ⟨SimulationResumeEvent e.sim_time,
      by simp +decide [EventFactory.create_event_from_json, Event.to_json, h3],
      by simp [SimulationResumeEvent, h3], rfl,
      by simp [SimulationResumeEvent, he], by simp [SimulationResumeEvent, hcp],
      by simp [SimulationResumeEvent, hpt],
      fun hnot => absurd (by simp [handled_wire_names, h3]) hnot⟩
  by_cases h4 : e.event_name = ScarabEventType.SIMULATION_SHUTDOWN
  · obtain ⟨he, hcp, hpt⟩ := hsim (by simp [h4])
    exact ⟨SimulationShutdownEvent e.sim_time,
      by simp +decide [EventFactory.create_event_from_json, Event.to_json, h4],
      by simp [SimulationShutdownEvent, h4], rfl,
      by simp [SimulationShutdownEvent, he], by simp [SimulationShutdownEvent, hcp],
      by simp [SimulationShutdownEvent, hpt],
      fun hnot => absurd (by simp [handled_wire_names, h4]) hnot⟩
  by_cases h5 : e.event_name = ScarabEventType.ENTITY_CREATED
  · obtain ⟨hent, hcp, hpt⟩ := hc h5
    obtain ⟨props, hprops⟩ := Option.isSome_iff_exists.mp hent
    exact ⟨EntityCreatedEvent props e.sim_time,
      by simp +decide [EventFactory.create_event_from_json, Event.to_json, h5, hprops],
      by simp [EntityCreatedEvent, h5], rfl,
      by simp [EntityCreatedEvent, hprops], by simp [EntityCreatedEvent, hcp],
      by simp [EntityCreatedEvent, hpt],
      fun hnot => absurd (by simp [handled_wire_names, h5]) hnot⟩
  by_cases h6 : e.event_name = ScarabEventType.ENTITY_CHANGED
  · obtain ⟨hent, hcps, hpt⟩ := hch h6
    obtain ⟨props, hprops⟩ := Option.isSome_iff_exists.mp hent
    obtain ⟨cps, hcps'⟩ := Option.isSome_iff_exists.mp hcps
    exact ⟨EntityChangedEvent props cps e.sim_time,
      by simp +decide [EventFactory.create_event_from_json, Event.to_json, h6, hprops, hcps'],
      by simp [EntityChangedEvent, h6], rfl,
      by simp [EntityChangedEvent, hprops], by simp [EntityChangedEvent, hcps'],
      by simp [EntityChangedEvent, hpt],
      fun hnot => absurd (by simp [handled_wire_names, h6]) hnot⟩
  by_cases h7 : e.event_name = ScarabEventType.ENTITY_DESTROYED
  · obtain ⟨hent, hcp, hpt⟩ := hd h7
    obtain ⟨props, hprops⟩ := Option.isSome_iff_exists.mp hent
    exact ⟨EntityDestroyedEvent props e.sim_time,
      by simp +decide [EventFactory.create_event_from_json, Event.to_json, h7, hprops],
      by simp [EntityDestroyedEvent, h7], rfl,
      by simp [EntityDestroyedEvent, hprops], by simp [EntityDestroyedEvent, hcp],
      by simp [EntityDestroyedEvent, hpt],
      fun hnot => absurd (by simp [handled_wire_names, h7]) hnot⟩
  by_cases h8 : e.event_name = ScarabEventType.TIME_UPDATED
  · obtain ⟨⟨t, p, hst, hpt', hlt⟩, hent, hcp⟩ := htu h8
    refine ⟨{ event_name := ScarabEventType.TIME_UPDATED, sim_time := some t,
              previous_time := some p }, ?_,
      by simp [h8], by simp [hst], by simp [hent], by simp [hcp], by simp [hpt'],
      fun hnot => absurd (by simp [handled_wire_names, h8]) hnot⟩
    simp +decide [EventFactory.create_event_from_json, Event.to_json, h8,
      hst, hpt', TimeUpdatedEvent, not_le.mpr hlt, Except.map]
  · have hnotin : e.event_name ∉ handled_wire_names := by
      simp [handled_wire_names, h1, h2, h3, h4, h5, h6, h7, h8]
    obtain ⟨hent, hcp, hpt⟩ := hother hnotin
    exact ⟨{ event_name := e.event_name, sim_time := e.sim_time, target_id := e.target_id,
             sender_id := e.sender_id },
      by simp [EventFactory.create_event_from_json, Event.to_json, h1, h2, h3, h4, h5, h6, h7,
        h8],
      rfl, rfl, by simp [hent], by simp [hcp], by simp [hpt],
      fun _ => ⟨rfl, rfl⟩⟩

/-! ## Change detection (C6) -/

/-- A key found by `List.lookup` is a member. -/
theorem lookup_mem {l : Props} {k : String} {v : PropValue}
    (h : List.lookup k l = some v) : (k, v) ∈ l := by
  induction l with
  | nil => simp [List.lookup] at h
  | cons kv rest ih =>
    obtain ⟨k', v'⟩ := kv
    by_cases he : k = k'
    · subst he
      simp [List.lookup] at h
      simp [h]
    · have hb : (k == k') = false := beq_eq_false_iff_ne.mpr he
      simp [List.lookup, hb] at h
      exact List.mem_cons_of_mem _ (ih h)

/-- With duplicate-free keys, membership determines the lookup. -/
theorem lookup_of_mem_nodup {l : Props} {k : String} {v : PropValue}
    (hnd : (l.map Prod.fst).Nodup) (h : (k, v) ∈ l) : List.lookup k l = some v := by
  induction l with
  | nil => simp at h
  | cons kv rest ih =>
    obtain ⟨k', v'⟩ := kv
    simp only [List.map_cons, List.nodup_cons] at hnd
    rcases List.mem_cons.mp h with heq | hmem
    · cases heq
      simp [List.lookup]
    · have hne : k ≠ k' := by
        rintro rfl
        exact hnd.1 (List.mem_map.mpr ⟨(k, v), hmem, rfl⟩)
      have hb : (k == k') = false := beq_eq_false_iff_ne.mpr hne
      simp [List.lookup, hb]
      exact ih hnd.2 hmem

/-- A present key has a non-`none` lookup. -/
theorem lookup_isSome_of_mem {l : Props} {k : String} {v : PropValue} (h : (k, v) ∈ l) :
    (List.lookup k l).isSome := by
  induction l with
  | nil => simp at h
  | cons kv rest ih =>
    obtain ⟨k', v'⟩ := kv
    by_cases he : k = k'
    · subst he; simp [List.lookup]
    · have hb : (k == k') = false := beq_eq_false_iff_ne.mpr he
      rcases List.mem_cons.mp h with heq | hmem
      · cases heq; simp at hb
      · simp only [List.lookup, hb]
        exact ih hmem

/-- The test of the first `_compare_properties` loop: the property is in
the new dict and absent from or different in the old dict. -/
def changedP (old_properties : Props) (kv : String × PropValue) : Bool :=
  match List.lookup kv.1 old_properties with
  | some v => decide (v ≠ kv.2)
  | Option.none => true

/-- The test of the second `_compare_properties` loop: the property was
deleted. -/
def deletedP (new_properties : Props) (kv : String × PropValue) : Bool :=
  (List.lookup kv.1 new_properties).isNone

/-- A fold that appends the key of each element passing a test is a
filter. -/
theorem foldl_append_singleton (p : String × PropValue → Bool) (l : Props)
    (init : List String) :
    l.foldl (fun acc kv => if p kv then acc ++ [kv.1] else acc) init =
      init ++ (l.filter p).map Prod.fst := by
  induction l generalizing init with
  | nil => simp
  | cons kv rest ih => by_cases hp : p kv <;> simp [hp, ih]

/-- `_compare_properties` lists the changed-or-added keys of the new
dict followed by the deleted keys of the old dict. -/
theorem compare_properties_eq (old_properties new_properties : Props) :
    Simulation._compare_properties old_properties new_properties =
      (new_properties.filter (changedP old_properties)).map Prod.fst ++
        (old_properties.filter (deletedP new_properties)).map Prod.fst := by
  unfold Simulation._compare_properties
  have hbody : (fun (acc : List String) (kv : String × PropValue) =>
      match List.lookup kv.1 old_properties with
      | some v => if v ≠ kv.2 then acc ++ [kv.1] else acc
      | Option.none => acc ++ [kv.1]) =
      (fun acc kv => if changedP old_properties kv then acc ++ [kv.1] else acc) := by
    funext acc kv
    unfold changedP
    cases List.lookup kv.1 old_properties with
    | some v => by_cases hv : v = kv.2 <;> simp [hv]
    | none => simp
  have hbody2 : (fun (acc : List String) (kv : String × PropValue) =>
      if (List.lookup kv.1 new_properties).isNone then acc ++ [kv.1] else acc) =
      (fun acc kv => if deletedP new_properties kv then acc ++ [kv.1] else acc) := rfl
  rw [hbody, hbody2, foldl_append_singleton, foldl_append_singleton]
  simp

/-- The diff is empty exactly when the two dicts agree as finite maps
(for duplicate-free keys, as Python dicts are). -/
theorem compare_properties_nil_iff (old_properties new_properties : Props)
    (hold : (old_properties.map Prod.fst).Nodup)
    (hnew : (new_properties.map Prod.fst).Nodup) :
    (Simulation._compare_properties old_properties new_properties = [] ↔
      ∀ k, List.lookup k old_properties = List.lookup k new_properties) := by
  rw [compare_properties_eq]
  simp only [List.append_eq_nil, List.map_eq_nil_iff, List.filter_eq_nil_iff]
  constructor
  · rintro ⟨hch, hdel⟩ k
    cases hn : List.lookup k new_properties with
    | some v =>
      have hmem := lookup_mem hn
      have := hch (k, v) hmem
      unfold changedP at this
      cases ho : List.lookup k old_properties with
      | some w =>
        rw [ho] at this
        simp at this
        rw [this]
      | none => rw [ho] at this; simp at this
    | none =>
      cases ho : List.lookup k old_properties with
      | some w =>
        have hmem := lookup_mem ho
        have := hdel (k, w) hmem
        unfold deletedP at this
        simp [hn] at this
      | none => rfl
  · intro hall
    constructor
    · intro kv hmem
      have h1 : List.lookup kv.1 new_properties = some kv.2 := lookup_of_mem_nodup hnew hmem
      have h2 : List.lookup kv.1 old_properties = some kv.2 := (hall kv.1).trans h1
      unfold changedP
      simp [h2]
    · intro kv hmem
      have h1 : List.lookup kv.1 old_properties = some kv.2 := lookup_of_mem_nodup hold hmem
      have h2 : List.lookup kv.1 new_properties = some kv.2 := (hall kv.1).symm.trans h1
      unfold deletedP
      simp [h2]

/-- Bands other than band 1 are untouched when band 1 is written. -/
theorem band_setBand_ne_one (q : OrderedEventQueue) (b : TimeEventQueue) (j : Nat)
    (hj : j ≠ 1) : (q.setBand 1 b).band j = q.band j := by
  match j with
  | 0 => rfl
  | 1 => exact absurd rfl hj
  | 2 => rfl
  | n + 3 => rfl

/-- Sending an `EntityChangedEvent` with no time from a state whose
change band has not advanced past the clock: the event is stamped
`clock + 1`, appended to band 1's bucket at `clock + 1`, and no band's
last-returned tracker moves. -/
theorem Simulation.send_changed_ok (sim : Simulation) (props : Props) (ch : List String)
    (hmin : (sim.event_queue.band 1).min_event_time ≤ sim.current_time) :
    ∃ q', sim.send_event (EntityChangedEvent props ch) =
        .ok ({ sim with event_queue := q' },
          SendOutcome.enqueued (EntityChangedEvent props ch (some (sim.current_time + 1)))) ∧
      q'.bucketAt 1 (sim.current_time + 1) =
        sim.event_queue.bucketAt 1 (sim.current_time + 1) ++
          [EntityChangedEvent props ch (some (sim.current_time + 1))] ∧
      ∀ j, (q'.band j).min_event_time = (sim.event_queue.band j).min_event_time := by
  have hni : (EntityChangedEvent props ch).event_name ∉ Simulation._immediate_events := by
    simp +decide [EntityChangedEvent, Simulation._immediate_events]
  have hidx : putIdxOf (EntityChangedEvent props ch (some (sim.current_time + 1))) = some 1 := by
    rfl
  have hupd : { EntityChangedEvent props ch with sim_time := some (sim.current_time + 1) } =
      EntityChangedEvent props ch (some (sim.current_time + 1)) := rfl
  simp only [Simulation.send_event, if_neg hni,
    if_pos (show (EntityChangedEvent props ch).sim_time = Option.none from rfl), hupd,
    OrderedEventQueue.put_eq_band _ _ 1 hidx,
    TimeEventQueue.put_some (sim.event_queue.band 1)
      (EntityChangedEvent props ch (some (sim.current_time + 1))) (sim.current_time + 1) rfl,
    if_neg (show ¬ sim.current_time + 1 <
      (sim.event_queue.band 1).min_event_time + 1 by omega), Except.map]
  refine ⟨_, rfl, ?_, ?_⟩
  · simp [OrderedEventQueue.bucketAt, band_setBand, getKey?_setKey_self]
  · intro j
    by_cases hj : j = 1
    · subst hj; rw [band_setBand]
    · rw [band_setBand_ne_one _ _ _ hj]

/-- The change-event loop, fully characterized: it succeeds, emits
exactly the expected change events, touches neither the clock nor the
live set nor any band tracker past the clock, and appends the events to
band 1's bucket at `clock + 1`. -/
theorem Simulation.sendChangeLoop_spec (before_properties : List (String × Props)) :
    ∀ sim : Simulation, (sim.event_queue.band 1).min_event_time ≤ sim.current_time →
    ∃ sim', Simulation.sendChangeLoop sim before_properties =
        .ok (sim', Simulation.expectedChangeEvents sim before_properties) ∧
      sim'.current_time = sim.current_time ∧ sim'.entities = sim.entities ∧
      (sim'.event_queue.band 1).min_event_time ≤ sim'.current_time ∧
      sim'.event_queue.bucketAt 1 (sim.current_time + 1) =
        sim.event_queue.bucketAt 1 (sim.current_time + 1) ++
          Simulation.expectedChangeEvents sim before_properties := by
  induction before_properties with
  | nil =>
    intro sim hmin
    exact ⟨sim, rfl, rfl, rfl, hmin, by simp [Simulation.expectedChangeEvents]⟩
  | cons kv rest ih =>
    intro sim hmin
    obtain ⟨entityID, old_properties⟩ := kv
    cases hlk : List.lookup entityID sim.entities with
    | none =>
      obtain ⟨sim', h1, h2, h3, h4, h5⟩ := ih sim hmin
      refine ⟨sim', ?_, h2, h3, h4, ?_⟩
      · simpa [Simulation.sendChangeLoop, hlk, Simulation.expectedChangeEvents] using h1
      · simpa [Simulation.expectedChangeEvents, hlk] using h5
    | some entity =>
      by_cases hch : 0 <
          (Simulation._compare_properties old_properties (scarab_properties entity)).length
      · obtain ⟨q', hsend, hbq, hbmins⟩ :=
          Simulation.send_changed_ok sim (scarab_properties entity)
            (Simulation._compare_properties old_properties (scarab_properties entity)) hmin
        have hmin₁ : (OrderedEventQueue.band
            ({ sim with event_queue := q' } : Simulation).event_queue 1).min_event_time ≤
            ({ sim with event_queue := q' } : Simulation).current_time := by
          show (q'.band 1).min_event_time ≤ sim.current_time
          rw [hbmins 1]; exact hmin
        obtain ⟨sim', h1, h2, h3, h4, h5⟩ := ih { sim with event_queue := q' } hmin₁
        have hexp : Simulation.expectedChangeEvents { sim with event_queue := q' } rest =
            Simulation.expectedChangeEvents sim rest := rfl
        rw [hexp] at h1 h5
        refine ⟨sim', ?_, h2, h3, h4, ?_⟩
        · simp only [Simulation.sendChangeLoop, hlk, if_pos hch, hsend, h1,
            Simulation.expectedChangeEvents, List.filterMap_cons, Except.map]
          simp [Simulation.expectedChangeEvents, hlk, if_pos hch,
            show { EntityChangedEvent (scarab_properties entity)
                (Simulation._compare_properties old_properties (scarab_properties entity)) with
              sim_time := some (sim.current_time + 1) } =
              EntityChangedEvent (scarab_properties entity)
                (Simulation._compare_properties old_properties (scarab_properties entity))
                (some (sim.current_time + 1)) from rfl]
        · rw [show Simulation.expectedChangeEvents sim ((entityID, old_properties) :: rest) =
              EntityChangedEvent (scarab_properties entity)
                (Simulation._compare_properties old_properties (scarab_properties entity))
                (some (sim.current_time + 1)) ::
                Simulation.expectedChangeEvents sim rest from ?_]
          · rw [← List.singleton_append, ← List.append_assoc, ← hbq]
            exact h5
          · simp [Simulation.expectedChangeEvents, hlk, if_pos hch]
            rfl
      · obtain ⟨sim', h1, h2, h3, h4, h5⟩ := ih sim hmin
        refine ⟨sim', ?_, h2, h3, h4, ?_⟩
        · simpa [Simulation.sendChangeLoop, hlk, if_neg hch,
            Simulation.expectedChangeEvents] using h1
        · simpa [Simulation.expectedChangeEvents, hlk, if_neg hch] using h5

/-- C6: `_send_entity_change_events` enqueues exactly one ENTITY_CHANGED
event, at time `clock + 1`, for each entity of the pre-step snapshot
that is still live and whose fresh snapshot differs — carrying the
changed-property names computed by `_compare_properties` (changed,
added and removed fields alike, which list is empty exactly when the
two snapshots agree as maps); the events land in the change band's
bucket for `clock + 1`. -/
theorem C6_change_events (sim : Simulation) (before_properties : List (String × Props))
    (hmin : (sim.event_queue.band 1).min_event_time ≤ sim.current_time) :
    (∃ sim', Simulation._send_entity_change_events sim before_properties =
        .ok (sim', Simulation.expectedChangeEvents sim before_properties) ∧
      sim'.current_time = sim.current_time ∧ sim'.entities = sim.entities ∧
      sim'.event_queue.bucketAt 1 (sim.current_time + 1) =
        sim.event_queue.bucketAt 1 (sim.current_time + 1) ++
          Simulation.expectedChangeEvents sim before_properties) ∧
    (∀ ev ∈ Simulation.expectedChangeEvents sim before_properties,
      ev.event_name = ScarabEventType.ENTITY_CHANGED ∧
      ev.sim_time = some (sim.current_time + 1)) ∧
    (∀ old_properties new_properties : Props,
      (old_properties.map Prod.fst).Nodup → (new_properties.map Prod.fst).Nodup →
      (Simulation._compare_properties old_properties new_properties = [] ↔
        ∀ k, List.lookup k old_properties = List.lookup k new_properties)) := by
  refine ⟨?_, ?_, fun o n ho hn => compare_properties_nil_iff o n ho hn⟩
  · obtain ⟨sim', h1, h2, h3, _, h5⟩ := Simulation.sendChangeLoop_spec before_properties sim hmin
    exact ⟨sim', h1, h2, h3, h5⟩
  · intro ev hev
    simp only [Simulation.expectedChangeEvents, List.mem_filterMap] at hev
    obtain ⟨kv, _, hfkv⟩ := hev
    cases hlk : List.lookup kv.1 sim.entities with
    | none => rw [hlk] at hfkv; simp at hfkv
    | some entity =>
      rw [hlk] at hfkv
      simp only [] at hfkv
      by_cases hch : 0 <
          (Simulation._compare_properties kv.2 (scarab_properties entity)).length
      · rw [if_pos hch] at hfkv
        cases hfkv
        exact ⟨rfl, rfl⟩
      · rw [if_neg hch] at hfkv
        simp at hfkv

/-- The entity and state used by the C6 witness: the live entity's
`temp` is 75 while the pre-step snapshot recorded 50. -/
def entA : EntityObj :=
  { scarab_name := "a", scarab_id := "A", fields := [("temp", PropValue.int 75)] }

/-- A simulation at clock 0 holding `entA`. -/
def simC6 : Simulation := { entities := [("A", entA)] }

/-- The pre-step snapshot of `entA` with the old `temp`. -/
def beforeC6 : List (String × Props) :=
  [("A", [("scarab_name", PropValue.str "a"), ("scarab_id", PropValue.str "A"),
          ("temp", PropValue.int 50)])]

/-- C6 witness: the loop on the concrete changed entity emits exactly
one ENTITY_CHANGED event at time 1 carrying `temp`. -/
theorem C6_witness :
    ∃ sim', Simulation._send_entity_change_events simC6 beforeC6 =
        .ok (sim', Simulation.expectedChangeEvents simC6 beforeC6) ∧
      Simulation.expectedChangeEvents simC6 beforeC6 =
        [EntityChangedEvent (scarab_properties entA) ["temp"] (some 1)] := by
  obtain ⟨⟨sim', h1, _, _, _⟩, _, _⟩ := C6_change_events simC6 beforeC6 (by decide)
  exact ⟨sim', h1, by decide⟩

/-- A concrete time-updated event used by the C9 witness. -/
def tu76 : Event :=
  { event_name := ScarabEventType.TIME_UPDATED, sim_time := some 7, previous_time := some 6 }

/-- C9 witness: the amended round-trip evaluated on a concrete
time-updated event. -/
theorem C9_witness :
    WellFormedEvent tu76 ∧
    ∃ e', EventFactory.create_event_from_json tu76.to_json = .ok (some e') ∧
      e'.sim_time = some 7 ∧ e'.previous_time = some 6 := by
  have hwf : WellFormedEvent tu76 := by
    refine ⟨?_, ?_, ?_, ?_, ?_, ?_⟩ <;> intro h <;> first
      | exact ⟨⟨7, 6, rfl, rfl, by norm_num⟩, rfl, rfl⟩
      | simp_all [tu76, ScarabEventType.TIME_UPDATED, ScarabEventType.ENTITY_CREATED,
          ScarabEventType.ENTITY_CHANGED, ScarabEventType.ENTITY_DESTROYED,
          ScarabEventType.SIMULATION_START, ScarabEventType.SIMULATION_PAUSE,
          ScarabEventType.SIMULATION_RESUME, ScarabEventType.SIMULATION_SHUTDOWN,
          handled_wire_names]
  obtain ⟨e', h1, _, h3, _, _, h6, _⟩ := C9_roundtrip_amended tu76 hwf
  exact ⟨hwf, e', h1, by rw [h3]; rfl, by rw [h6]; rfl⟩

end Scarab
